import Mathlib

/-!
Verification of the router-brute coordination and protocol layer.

The Go source is embedded shallowly: byte strings become `List Nat`
(every byte produced by the embedded encoders is below 256), Go slices
become lists, fallible functions return `Except String`, and the stateful
protocol modules become explicit state-passing step functions.  Each
definition mirrors one Go function and carries its name.
-/

set_option maxRecDepth 4000

namespace RouterBrute

/-- Byte strings are modelled as lists of natural numbers. -/
abbrev Bytes := List Nat

/-- ASCII bytes of a Go string literal. -/
def strBytes (s : String) : Bytes := s.data.map Char.toNat

/-! ## Length-prefixed wire codec (internal/modules/mikrotik/common and v6 client) -/

/-- AppendLengthPrefixed from the shared mikrotik `common` package: append a
single length byte followed by the word, truncating words longer than 255
bytes to their first 255 bytes. -/
def appendLengthPrefixed (buf : Bytes) (word : Bytes) : Bytes :=
  let wordBytes := if word.length > 255 then word.take 255 else word
  (buf ++ [wordBytes.length]) ++ wordBytes

/-- buildLoginCommand from the v6 client: three length-prefixed words
followed by the 0x00 sentence terminator. -/
def buildLoginCommand (username password : Bytes) : Bytes :=
  let buf := appendLengthPrefixed [] (strBytes "/login")
  let buf := appendLengthPrefixed buf (strBytes "=name=" ++ username)
  let buf := appendLengthPrefixed buf (strBytes "=password=" ++ password)
  buf ++ [0]

/-- Word-encoding loop of MikrotikV6Module.encodeSentence: unlike
AppendLengthPrefixed it rejects words longer than 255 bytes. -/
def encodeWords : List Bytes → Except String Bytes
  | [] => .ok []
  | w :: ws =>
    if w.length > 255 then .error "word too long"
    else (encodeWords ws).map (fun rest => (w.length :: w) ++ rest)

/-- MikrotikV6Module.encodeSentence: length-prefix every word, then append
the 0x00 sentence terminator. -/
def encodeSentence (sentence : List Bytes) : Except String Bytes :=
  (encodeWords sentence).map (fun buf => buf ++ [0])

/-- MikrotikV6Module.decodeWords: read a length byte (zero ends the
sentence), then exactly that many payload bytes; fail with an error when
fewer bytes remain. -/
def decodeWords : Bytes → Except String (List Bytes)
  | [] => .ok []
  | b :: rest =>
    if b = 0 then .ok []
    else if rest.length < b then .error "invalid word length"
    else (decodeWords (rest.drop b)).map (fun ws => rest.take b :: ws)
termination_by data => data.length
decreasing_by simp [List.length_drop]; omega

/-- Shape of one emitted word as the spec states it: a length byte
(the word length capped at 255) followed by the word truncated to 255
bytes. -/
def lengthPrefixedWord (w : Bytes) : Bytes := min w.length 255 :: w.take 255

theorem appendLengthPrefixed_eq (buf word : Bytes) :
    appendLengthPrefixed buf word = buf ++ lengthPrefixedWord word := by
  unfold appendLengthPrefixed lengthPrefixedWord
  by_cases h : word.length > 255
  · simp only [if_pos h, List.length_take]
    have h1 : min 255 word.length = 255 := by omega
    have h2 : min word.length 255 = 255 := by omega
    simp [h1, h2]
  · simp only [if_neg h]
    have h1 : min word.length 255 = word.length := by omega
    have h2 : word.take 255 = word := List.take_of_length_le (by omega)
    simp [h1, h2]

/-- C2, corrected. The claim as stated fails: `encodeSentence` (the wire
codec's sentence encoder) returns the error "word too long" for any word
longer than 255 bytes instead of truncating it.  Witnessed on a single
256-byte word. -/
theorem c2_counterexample :
    encodeSentence [List.replicate 256 97] = .error "word too long" := by
  have h : (List.replicate 256 97 : Bytes).length > 255 := by
    simp
  simp [encodeSentence, encodeWords, h, Except.map]

/-- C2, amended: the emitting path of the codec — AppendLengthPrefixed, used
by buildLoginCommand for every sentence actually sent — emits for every word
a single length byte followed by that many payload bytes (the word truncated
to its first 255 bytes), terminates the sentence with a zero byte, and is
total (it cannot fail on over-long input); the unused encodeSentence helper
instead rejects over-long words with an error. -/
theorem c2_amended :
    (∀ buf word, appendLengthPrefixed buf word = buf ++ lengthPrefixedWord word) ∧
    (∀ u p, buildLoginCommand u p =
      lengthPrefixedWord (strBytes "/login") ++
      lengthPrefixedWord (strBytes "=name=" ++ u) ++
      lengthPrefixedWord (strBytes "=password=" ++ p) ++ [0]) := by
  refine ⟨appendLengthPrefixed_eq, fun u p => ?_⟩
  simp [buildLoginCommand, appendLengthPrefixed_eq, List.append_assoc]

theorem encodeWords_eq_ok (s : List Bytes) (h : ∀ w ∈ s, w.length ≤ 255) :
    encodeWords s = .ok (s.flatMap fun w => w.length :: w) := by
  induction s with
  | nil => rfl
  | cons w ws ih =>
    have hw : ¬ w.length > 255 := by
      have := h w (List.mem_cons_self w ws)
      omega
    have hws : ∀ x ∈ ws, x.length ≤ 255 := fun x hx => h x (List.mem_cons_of_mem w hx)
    simp [encodeWords, hw, ih hws, Except.map]

theorem decodeWords_flatMap (s : List Bytes)
    (h : ∀ w ∈ s, w ≠ [] ∧ w.length ≤ 255) :
    decodeWords ((s.flatMap fun w => w.length :: w) ++ [0]) = .ok s := by
  induction s with
  | nil => simp [decodeWords]
  | cons w ws ih =>
    have hw := h w (List.mem_cons_self w ws)
    have hws : ∀ x ∈ ws, x ≠ [] ∧ x.length ≤ 255 :=
      fun x hx => h x (List.mem_cons_of_mem w hx)
    have hlen : w.length ≠ 0 := by
      intro hc
      exact hw.1 (List.eq_nil_of_length_eq_zero hc)
    have harr : (w ++ ((ws.flatMap fun x => x.length :: x) ++ [0])).length ≥ w.length := by
      simp
    rw [List.flatMap_cons, List.append_assoc, List.cons_append]
    rw [decodeWords]
    rw [if_neg hlen, if_neg (by omega)]
    have htake : (w ++ ((ws.flatMap fun x => x.length :: x) ++ [0])).take w.length = w :=
      List.take_left w _
    have hdrop : (w ++ ((ws.flatMap fun x => x.length :: x) ++ [0])).drop w.length =
        (ws.flatMap fun x => x.length :: x) ++ [0] :=
      List.drop_left w _
    rw [htake, hdrop, ih hws]
    rfl

/-- C3, corrected. The claim quantifies over all sentences whose words are at
most 255 bytes, which includes empty words; an empty word is encoded as a
zero length byte, which the decoder reads as the end of the sentence, so the
round trip loses it.  Concretely the one-word sentence consisting of the
empty word encodes to [0, 0] and decodes back to the empty sentence. -/
theorem c3_counterexample :
    encodeSentence [([] : Bytes)] = .ok [0, 0] ∧
      decodeWords [0, 0] = .ok [] := by
  constructor
  · rfl
  · rw [decodeWords]
    simp

/-- C3, amended: decoding inverts encoding for every sentence whose words
are nonempty and at most 255 bytes long. -/
theorem c3_amended (s : List Bytes) (h : ∀ w ∈ s, w ≠ [] ∧ w.length ≤ 255) :
    encodeSentence s = .ok ((s.flatMap fun w => w.length :: w) ++ [0]) ∧
      decodeWords ((s.flatMap fun w => w.length :: w) ++ [0]) = .ok s := by
  constructor
  · rw [encodeSentence, encodeWords_eq_ok s (fun w hw => (h w hw).2)]
    rfl
  · exact decodeWords_flatMap s h

/-- Witness for c3_amended at the concrete sentence [[97], [98, 99]]. -/
theorem c3_amended_witness :
    encodeSentence [[97], [98, 99]] = .ok [1, 97, 2, 98, 99, 0] ∧
      decodeWords [1, 97, 2, 98, 99, 0] = .ok [[97], [98, 99]] := by
  have h := c3_amended [[97], [98, 99]] (by
    intro w hw
    simp only [List.mem_cons, List.not_mem_nil] at hw
    rcases hw with h1 | h1 | h1 <;> first | (subst h1; exact ⟨by simp, by simp⟩) | exact absurd h1 (by simp))
  simpa using h

/-! ## WebFig web-safe byte transport (webfig.go webEncode / webDecode) -/

/-- UTF-8 expansion of one Latin-1 byte, as performed by the
charmap.ISO8859_1 decoder used in webEncode: code points below 0x80 are one
byte, the rest become the two-byte sequence 0xC2/0xC3 plus continuation. -/
def latin1ToUtf8Byte (b : Nat) : Bytes :=
  if b < 128 then [b] else [192 + b / 64, 128 + b % 64]

/-- bytes.ReplaceAll(data, []byte{0x00}, []byte{0xC4, 0x80}) from webEncode;
the pattern is a single byte, so replacement is per byte. -/
def replaceZeroBytes : Bytes → Bytes
  | [] => []
  | b :: rest => (if b = 0 then [196, 128] else [b]) ++ replaceZeroBytes rest

/-- webEncode from webfig.go: Latin-1-decode the bytes to UTF-8, then
replace every 0x00 byte with 0xC4 0x80. -/
def webEncode (data : Bytes) : Bytes :=
  replaceZeroBytes (data.flatMap latin1ToUtf8Byte)

/-- bytes.ReplaceAll(data, []byte{0xC4, 0x80}, []byte{0x00}) from webDecode:
left-to-right, non-overlapping replacement of the two-byte pattern. -/
def replaceC480 : Bytes → Bytes
  | [] => []
  | [b] => [b]
  | b :: b2 :: rest =>
    if b = 196 ∧ b2 = 128 then 0 :: replaceC480 rest
    else b :: replaceC480 (b2 :: rest)

/-- UTF-8 to Latin-1 re-encoding performed by the charmap.ISO8859_1 encoder
in webDecode.  The Go encoder stops at the first sequence that does not
decode to a code point below 0x100, and webDecode drops the error, keeping
the prefix transcoded so far. -/
def utf8ToLatin1 : Bytes → Bytes
  | [] => []
  | [b] => if b < 128 then [b] else []
  | b :: b2 :: rest =>
    if b < 128 then b :: utf8ToLatin1 (b2 :: rest)
    else if (b = 194 ∨ b = 195) ∧ 128 ≤ b2 ∧ b2 < 192 then
      ((b - 192) * 64 + (b2 - 128)) :: utf8ToLatin1 rest
    else []

/-- webDecode from webfig.go: undo the 0xC4 0x80 replacement, then encode
back to Latin-1 bytes. -/
def webDecode (data : Bytes) : Bytes :=
  utf8ToLatin1 (replaceC480 data)

theorem replaceZeroBytes_append (x y : Bytes) :
    replaceZeroBytes (x ++ y) = replaceZeroBytes x ++ replaceZeroBytes y := by
  induction x with
  | nil => rfl
  | cons b rest ih => simp [replaceZeroBytes, ih]

theorem replaceC480_pair (t : Bytes) :
    replaceC480 (196 :: 128 :: t) = 0 :: replaceC480 t := by
  rw [replaceC480, if_pos ⟨rfl, rfl⟩]

theorem replaceC480_cons (b : Nat) (hb : b ≠ 196) (t : Bytes) :
    replaceC480 (b :: t) = b :: replaceC480 t := by
  cases t with
  | nil => rfl
  | cons c cs =>
    rw [replaceC480, if_neg (by intro hc; exact hb hc.1)]

theorem utf8ToLatin1_cons_lo (b : Nat) (hb : b < 128) (t : Bytes) :
    utf8ToLatin1 (b :: t) = b :: utf8ToLatin1 t := by
  cases t with
  | nil => simp [utf8ToLatin1, hb]
  | cons c cs => rw [utf8ToLatin1, if_pos hb]

theorem utf8ToLatin1_cons_hi (b b2 : Nat)
    (h1 : b = 194 ∨ b = 195) (h2 : 128 ≤ b2 ∧ b2 < 192) (t : Bytes) :
    utf8ToLatin1 (b :: b2 :: t) =
      ((b - 192) * 64 + (b2 - 128)) :: utf8ToLatin1 t := by
  rw [utf8ToLatin1, if_neg (by omega), if_pos ⟨h1, h2⟩]

/-- C4, confirmed: the web-safe transport decode inverts the encode on every
byte string. -/
theorem c4_web_transport_roundtrip (data : Bytes) (h : ∀ b ∈ data, b < 256) :
    webDecode (webEncode data) = data := by
  unfold webDecode webEncode
  induction data with
  | nil => rfl
  | cons b rest ih =>
    have hb : b < 256 := h b (List.mem_cons_self b rest)
    have hrest : ∀ x ∈ rest, x < 256 := fun x hx => h x (List.mem_cons_of_mem b hx)
    rw [List.flatMap_cons, replaceZeroBytes_append]
    by_cases hz : b = 0
    · subst hz
      have henc : replaceZeroBytes (latin1ToUtf8Byte 0) = [196, 128] := rfl
      rw [henc, List.cons_append, List.cons_append, List.nil_append,
        replaceC480_pair, utf8ToLatin1_cons_lo 0 (by omega)]
      exact congrArg (0 :: ·) (ih hrest)
    · by_cases hlo : b < 128
      · have henc : replaceZeroBytes (latin1ToUtf8Byte b) = [b] := by
          simp [latin1ToUtf8Byte, if_pos hlo, replaceZeroBytes, hz]
        rw [henc, List.singleton_append, replaceC480_cons b (by omega),
          utf8ToLatin1_cons_lo b hlo]
        exact congrArg (b :: ·) (ih hrest)
      · have hc1 : 192 + b / 64 = 194 ∨ 192 + b / 64 = 195 := by omega
        have hc2 : 128 ≤ 128 + b % 64 ∧ 128 + b % 64 < 192 := by omega
        have henc : replaceZeroBytes (latin1ToUtf8Byte b) =
            [192 + b / 64, 128 + b % 64] := by
          simp only [latin1ToUtf8Byte, if_neg hlo, replaceZeroBytes]
          rw [if_neg (by omega), if_neg (by omega)]
          rfl
        rw [henc, List.cons_append, List.cons_append, List.nil_append,
          replaceC480_cons _ (by omega), replaceC480_cons _ (by omega),
          utf8ToLatin1_cons_hi _ _ hc1 hc2]
        have hval : (192 + b / 64 - 192) * 64 + (128 + b % 64 - 128) = b := by omega
        rw [hval]
        exact congrArg (b :: ·) (ih hrest)

/-- Witness for c4_web_transport_roundtrip on the bytes [0, 65, 255, 0]. -/
theorem c4_web_transport_roundtrip_witness :
    webDecode (webEncode [0, 65, 255, 0]) = [0, 65, 255, 0] :=
  c4_web_transport_roundtrip [0, 65, 255, 0] (by decide)

/-! ## PasswordQueue (internal/core password queue) -/

/-- PasswordQueue state: the wordlist and the monotone cursor.  The mutex is
irrelevant in the serialized model. -/
structure PasswordQueue where
  passwords : List String
  index : Nat
deriving Repr, DecidableEq

namespace PasswordQueue

/-- PasswordQueue.Next: return the password under the cursor and advance it,
or the empty string (and an unchanged cursor) when the list is exhausted. -/
def next (pq : PasswordQueue) : String × PasswordQueue :=
  if pq.index ≥ pq.passwords.length then ("", pq)
  else (pq.passwords.getD pq.index "", { pq with index := pq.index + 1 })

/-- PasswordQueue.Unget: rewind the cursor by one, saturating at zero. -/
def unget (pq : PasswordQueue) : PasswordQueue :=
  if pq.index > 0 then { pq with index := pq.index - 1 } else pq

/-- PasswordQueue.Reset. -/
def reset (pq : PasswordQueue) : PasswordQueue :=
  { pq with index := 0 }

/-- PasswordQueue.Total. -/
def total (pq : PasswordQueue) : Nat := pq.passwords.length

/-- PasswordQueue.Remaining (Go int subtraction; the cursor never exceeds
the length, so Nat subtraction agrees). -/
def remaining (pq : PasswordQueue) : Nat := pq.passwords.length - pq.index

end PasswordQueue

/-- C5, corrected.  The claim "Next() followed immediately by Unget() leaves
the cursor unchanged for every state" fails on an exhausted queue: Next
returns the empty sentinel without moving the cursor, but Unget still
rewinds it.  Concretely, on the one-password queue with cursor 1, Next
leaves the cursor at 1 and Unget then moves it to 0. -/
theorem c5_counterexample :
    ((PasswordQueue.mk ["a"] 1).next.2.unget).index = 0 ∧
      (PasswordQueue.mk ["a"] 1).index = 1 := by
  constructor
  · rfl
  · rfl

/-- C5, amended: when the cursor is strictly below the total (so Next really
consumes a password), Next followed by Unget leaves the cursor unchanged;
and Unget on its own always rewinds the cursor by exactly one, saturating
at zero. -/
theorem c5_amended (pq : PasswordQueue) :
    (pq.index < pq.passwords.length → (pq.next.2.unget).index = pq.index) ∧
      pq.unget.index = pq.index - 1 := by
  constructor
  · intro h
    simp [PasswordQueue.next, PasswordQueue.unget, Nat.not_le.mpr h]
  · unfold PasswordQueue.unget
    by_cases h : pq.index > 0
    · simp [h]
    · simp [h]
      omega

/-- Witness for c5_amended at the queue with two passwords and cursor 1. -/
theorem c5_amended_witness :
    (1 < (PasswordQueue.mk ["a", "b"] 1).passwords.length →
        ((PasswordQueue.mk ["a", "b"] 1).next.2.unget).index = 1) ∧
      (PasswordQueue.mk ["a", "b"] 1).unget.index = 1 - 1 :=
  c5_amended (PasswordQueue.mk ["a", "b"] 1)

/-! ## Adaptive timeout (internal/core/engine.go) -/

/-- The 500 ms increment from Engine.increaseTimeout.  Durations are
nanosecond counts, as Go time.Duration values (non-negative in every
reachable engine configuration). -/
def halfSecond : Nat := 500000000

/-- Engine.increaseTimeout: add 500 ms to the current timeout, capping at
maxTimeout.  (The source skips the assignment when the value is unchanged,
which does not affect the resulting value.) -/
def increaseTimeout (currentTimeout maxTimeout : Nat) : Nat :=
  if currentTimeout + halfSecond > maxTimeout then maxTimeout
  else currentTimeout + halfSecond

/-- k successive timeout faults applied to the adaptive timeout. -/
def iterateIncreaseTimeout (k : Nat) (currentTimeout maxTimeout : Nat) : Nat :=
  match k with
  | 0 => currentTimeout
  | k + 1 => increaseTimeout (iterateIncreaseTimeout k currentTimeout maxTimeout) maxTimeout

/-- C6, corrected.  The update is min(current + 500ms, max) as claimed, but
"the timeout never decreases" fails when the current timeout exceeds the
configured maximum (reachable, since SetCurrentTimeout and the resume-seeded
timeout are not clamped): from current = 30.5s with max = 30s one timeout
fault lowers the timeout to 30s. -/
theorem c6_counterexample :
    increaseTimeout 30500000000 30000000000 = 30000000000 ∧
      30000000000 < 30500000000 := by
  constructor
  · rfl
  · omega

/-- C6, amended: every i/o-timeout fault sets the adaptive timeout to
min(current + 500ms, max); the timeout never decreases as long as the
current value is within max; and after k ≥ 1 successive timeout faults from
initial value t0 the timeout equals min(t0 + k·500ms, max) — for every t0,
including t0 above max. -/
theorem c6_amended :
    (∀ cur max, increaseTimeout cur max = min (cur + halfSecond) max) ∧
      (∀ cur max, cur ≤ max → cur ≤ increaseTimeout cur max) ∧
      (∀ t0 max k, 1 ≤ k →
        iterateIncreaseTimeout k t0 max = min (t0 + k * halfSecond) max) := by
  refine ⟨?_, ?_, ?_⟩
  · intro cur max
    unfold increaseTimeout
    split <;> omega
  · intro cur max h
    unfold increaseTimeout
    split <;> omega
  · intro t0 max k hk
    induction k with
    | zero => omega
    | succ n ih =>
      cases Nat.eq_or_lt_of_le hk with
      | inl h1 =>
        have hn : n = 0 := by omega
        subst hn
        show increaseTimeout (iterateIncreaseTimeout 0 t0 max) max = _
        unfold iterateIncreaseTimeout increaseTimeout
        split <;> omega
      | inr h1 =>
        have hn : 1 ≤ n := by omega
        have hmul : (n + 1) * halfSecond = n * halfSecond + halfSecond := by ring
        rw [iterateIncreaseTimeout, ih hn, hmul]
        unfold increaseTimeout
        split <;> omega

/-- Witness for c6_amended: one fault from 1s with max 5s gives 1.5s, and
three faults from 4.2s cap at 5s. -/
theorem c6_amended_witness :
    increaseTimeout 1000000000 5000000000 = min (1000000000 + halfSecond) 5000000000 ∧
      (1000000000 ≤ 5000000000 → (1000000000 : Nat) ≤ increaseTimeout 1000000000 5000000000) ∧
      iterateIncreaseTimeout 3 4200000000 5000000000 = min (4200000000 + 3 * halfSecond) 5000000000 :=
  ⟨c6_amended.1 1000000000 5000000000,
   fun h => c6_amended.2.1 1000000000 5000000000 h,
   c6_amended.2.2 4200000000 5000000000 3 (by omega)⟩

/-! ## Substring matching (strings.Contains), used by the error classifiers -/

/-- Containment of one character list in another: test a prefix match at
every position, the semantics of Go strings.Contains. -/
def hasSubList (hay needle : List Char) : Bool :=
  if needle.isPrefixOf hay then true
  else
    match hay with
    | [] => false
    | _ :: t => hasSubList t needle

/-- strings.Contains(s, sub). -/
def strContains (s sub : String) : Bool := hasSubList s.data sub.data

theorem isPrefixOf_append_self (l t : List Char) : l.isPrefixOf (l ++ t) = true := by
  induction l with
  | nil => simp [List.isPrefixOf]
  | cons c cs ih => simp [List.isPrefixOf, ih]

theorem strContains_append_left (a b : String) : strContains (a ++ b) a = true := by
  unfold strContains
  rw [String.data_append]
  rw [hasSubList.eq_def, if_pos (isPrefixOf_append_self a.data b.data)]

/-! ## REST driver (internal/modules/mikrotik/v7/rest/client.go) -/

/-- Outcome of reading the body of a 200 response in the REST driver:
either io.ReadAll fails, or the body is read and json.Unmarshal either
succeeds (jsonOk) or fails. -/
inductive RestBody where
  | readErr (msg : String)
  | content (jsonOk : Bool)
deriving Repr, DecidableEq

/-- Outcome of the HTTP round trip in MikrotikV7RestModule.Authenticate:
either the transport fails with an error message, or a response with a
status code and body arrives. -/
inductive RestOutcome where
  | transportErr (msg : String)
  | response (status : Nat) (body : RestBody)
deriving Repr, DecidableEq

/-- MikrotikV7RestModule.Authenticate classification, as a function of the
HTTP outcome.  The Close/Connect preamble always succeeds for the REST
module (no I/O) and does not affect the returned pair. -/
def restAuthenticate : RestOutcome → Bool × Option String
  | .transportErr m =>
    if strContains m "401" || strContains m "Unauthorized" then (false, none)
    else (false, some m)
  | .response status body =>
    if status = 401 then (false, none)
    else if status ≠ 200 then
      (false, some ("REST API request failed with status: " ++ toString status))
    else
      match body with
      | .readErr m => (false, some m)
      | .content jsonOk =>
        if jsonOk then (true, none)
        else (false, some "invalid REST API response format")

/-- C7, confirmed: HTTP 200 with a JSON body is a success; 401 is a reject;
any other status, a body-read failure, or a 200 non-JSON body surfaces an
error rather than a reject; and a transport error whose text contains 401
or Unauthorized is a reject. -/
theorem c7_rest_authenticate_classification :
    restAuthenticate (.response 200 (.content true)) = (true, none) ∧
      (∀ body, restAuthenticate (.response 401 body) = (false, none)) ∧
      (∀ status body, status ≠ 200 → status ≠ 401 →
        restAuthenticate (.response status body) =
          (false, some ("REST API request failed with status: " ++ toString status))) ∧
      restAuthenticate (.response 200 (.content false)) =
        (false, some "invalid REST API response format") ∧
      (∀ m, restAuthenticate (.response 200 (.readErr m)) = (false, some m)) ∧
      (∀ m, (strContains m "401" || strContains m "Unauthorized") = true →
        restAuthenticate (.transportErr m) = (false, none)) := by
  refine ⟨rfl, fun body => rfl, fun status body h200 h401 => ?_, rfl, fun m => rfl, fun m hm => ?_⟩
  · rw [restAuthenticate.eq_def]
    simp only
    rw [if_neg h401, if_pos h200]
  · rw [restAuthenticate.eq_def]
    simp only
    rw [if_pos hm]

/-- Witness for c7_rest_authenticate_classification at status 500 and the
transport-error text "net/http: Unauthorized". -/
theorem c7_rest_authenticate_classification_witness :
    restAuthenticate (.response 500 (.content true)) =
        (false, some ("REST API request failed with status: " ++ toString 500)) ∧
      restAuthenticate (.transportErr "net/http: Unauthorized") = (false, none) :=
  ⟨c7_rest_authenticate_classification.2.2.1 500 (.content true) (by decide) (by decide),
   c7_rest_authenticate_classification.2.2.2.2.2 "net/http: Unauthorized" (by decide)⟩

/-! ## WebFig handshake (webfig.go NegotiateEncryption, v7/client.go) -/

/-- Big-endian 32-bit read (binary.BigEndian.Uint32) over a byte list. -/
def beU32 (b : Bytes) : Nat := b.foldl (fun acc byte => acc * 256 + byte) 0

/-- Session id and server public key extracted by NegotiateEncryption. -/
structure WebfigSessionInit where
  id : Nat
  serverPubKey : Bytes
deriving Repr, DecidableEq

/-- Response-validation step of NegotiateEncryption: the decoded handshake
response must be exactly 40 bytes; the first 4 bytes are the big-endian
session id and bytes 8..39 the server public key.  Any other length yields
the error NegotiateEncryption formats with fmt.Errorf. -/
def negotiateEncryptionCheck (response : Bytes) : Except String WebfigSessionInit :=
  if response.length ≠ 40 then
    .error ("unexpected public key response size: " ++ toString response.length)
  else
    .ok ⟨beU32 (response.take 4), response.drop 8⟩

/-- MikrotikV7Module.authenticateWebFig, as a function of the decoded
handshake response and of the subsequent webfig.Login outcome: a
negotiation error whose text contains "unexpected status code" or
"unexpected public key response" is treated as a credential reject
(false, none); other negotiation errors surface; otherwise the Login
outcome decides. -/
def authenticateWebFig (handshakeResponse : Bytes)
    (loginOutcome : Bool × Option String) : Bool × Option String :=
  match negotiateEncryptionCheck handshakeResponse with
  | .error e =>
    if strContains e "unexpected status code" ||
        strContains e "unexpected public key response" then (false, none)
    else (false, some e)
  | .ok _ =>
    match loginOutcome with
    | (_, some err) => (false, some err)
    | (true, none) => (true, none)
    | (false, none) => (false, none)

theorem negotiate_error_is_classified (n : Nat) :
    strContains ("unexpected public key response size: " ++ toString n)
      "unexpected public key response" = true := by
  have hlit : ("unexpected public key response size: " : String) =
      "unexpected public key response" ++ " size: " := rfl
  have hsplit : ("unexpected public key response size: " : String) ++ toString n =
      ("unexpected public key response" : String) ++ (" size: " ++ toString n) := by
    rw [hlit, String.append_assoc]
  rw [hsplit]
  exact strContains_append_left "unexpected public key response" (" size: " ++ toString n)

/-- C8, confirmed: a decoded handshake response of any length other than 40
bytes aborts negotiation and the enclosing Authenticate returns
(false, none) — a reject, not an error — whatever the login stage would
have produced; a 40-byte response yields the big-endian session id from the
first 4 bytes and the server public key from bytes 8..39. -/
theorem c8_webfig_handshake_length :
    (∀ r login, r.length ≠ 40 → authenticateWebFig r login = (false, none)) ∧
      (∀ r, r.length = 40 →
        negotiateEncryptionCheck r = .ok ⟨beU32 (r.take 4), r.drop 8⟩) := by
  constructor
  · intro r login hr
    unfold authenticateWebFig negotiateEncryptionCheck
    rw [if_pos hr]
    simp only
    rw [if_pos (by rw [negotiate_error_is_classified r.length, Bool.or_true])]
  · intro r hr
    unfold negotiateEncryptionCheck
    rw [if_neg (by omega)]

/-- Witness for c8_webfig_handshake_length: a 39-byte decoded response is a
reject whatever the login outcome, and on a concrete 40-byte response the
session id is read big-endian from the first 4 bytes. -/
theorem c8_webfig_handshake_length_witness :
    authenticateWebFig (List.replicate 39 0) (true, none) = (false, none) ∧
      negotiateEncryptionCheck (1 :: 2 :: 3 :: 4 :: List.replicate 36 7) =
        .ok ⟨beU32 ((1 :: 2 :: 3 :: 4 :: List.replicate 36 7).take 4),
             (1 :: 2 :: 3 :: 4 :: List.replicate 36 7).drop 8⟩ :=
  ⟨c8_webfig_handshake_length.1 (List.replicate 39 0) (true, none) (by simp),
   c8_webfig_handshake_length.2 (1 :: 2 :: 3 :: 4 :: List.replicate 36 7) (by simp)⟩

/-! ## Binary API driver state machine (part_009, MikrotikV6Module) -/

/-- Transient-connection-fault classification in MikrotikV6Module.Authenticate:
substring match on the error text. -/
def isTransientErrText (e : String) : Bool :=
  strContains e "broken pipe" || strContains e "connection reset" ||
    strContains e "EOF" || strContains e "i/o timeout" ||
    strContains e "connection refused"

/-- Authentication-reject classification in MikrotikV6Module.Authenticate. -/
def isAuthRejectText (e : String) : Bool :=
  strContains e "invalid user name or password" || strContains e "!trap" ||
    strContains e "!fatal"

/-- Connection-related state of one MikrotikV6Module instance.
sendsOnConn is a ghost counter: the number of login sentences pushed at the
current TCP connection since it was opened (an upper bound on the sentences
actually written, since a send may fail before reaching the wire). -/
structure V6State where
  connected : Bool
  attemptsOnConn : Nat
  sendsOnConn : Nat
deriving Repr, DecidableEq

/-- Environment of one Authenticate call: whether dialling succeeds, and the
error text sendLogin returns (none for a successful authentication). -/
structure V6Env where
  connectOk : Bool
  sendResult : Option String
deriving Repr, DecidableEq

/-- MikrotikV6Module.Close: drop the socket and reset the attempt counter. -/
def v6close (s : V6State) : V6State :=
  { s with connected := false, attemptsOnConn := 0 }

/-- The state of a fresh module (NewMikrotikV6Module). -/
def v6initialState : V6State := ⟨false, 0, 0⟩

/-- Counter increment before sendLogin, plus the ghost send count. -/
def v6incrementAttempt (s : V6State) : V6State :=
  { s with attemptsOnConn := s.attemptsOnConn + 1, sendsOnConn := s.sendsOnConn + 1 }

/-- Send phase of MikrotikV6Module.Authenticate: increment attemptsOnConn,
push the login sentence, then dispatch on sendLogin's outcome exactly as the
source does (transient text: close, surface the error; reject text:
(false, none); unknown error: close, surface; no error: (true, none)). -/
def v6sendPhase (s : V6State) (env : V6Env) : V6State × (Bool × Option String) :=
  match env.sendResult with
  | none => (v6incrementAttempt s, (true, none))
  | some e =>
    if isTransientErrText e then (v6close (v6incrementAttempt s), (false, some e))
    else if isAuthRejectText e then (v6incrementAttempt s, (false, none))
    else (v6close (v6incrementAttempt s), (false, some e))

/-- Connect-if-needed step of Authenticate: a connection attempt is made
only when disconnected; on success the attempt counter is reset (and the
ghost count of the new connection starts at zero). -/
def v6connectPhase (s : V6State) (env : V6Env) : V6State × (Bool × Option String) :=
  if s.connected then v6sendPhase s env
  else if env.connectOk then v6sendPhase ⟨true, 0, 0⟩ env
  else (s, (false, some "connection error"))

/-- MikrotikV6Module.Authenticate: close (and hence reconnect) before
sending whenever the current connection has already carried 4 attempts. -/
def v6authenticate (s : V6State) (env : V6Env) : V6State × (Bool × Option String) :=
  if s.connected ∧ s.attemptsOnConn ≥ 4 then v6connectPhase (v6close s) env
  else v6connectPhase s env

/-- Serialized Authenticate calls (the module mutex serializes them). -/
def v6run (inputs : List V6Env) : V6State :=
  inputs.foldl (fun s env => (v6authenticate s env).1) v6initialState

/-- Invariant tying the source counter to the ghost sentence counter. -/
def V6Inv (s : V6State) : Prop :=
  s.sendsOnConn ≤ 4 ∧ (s.connected = true → s.attemptsOnConn = s.sendsOnConn)

theorem v6sendPhase_preserves (s : V6State) (env : V6Env)
    (hle : s.sendsOnConn ≤ 3) (heq : s.attemptsOnConn = s.sendsOnConn) :
    V6Inv (v6sendPhase s env).1 := by
  unfold v6sendPhase
  cases env.sendResult with
  | none => exact ⟨by simp [v6incrementAttempt]; omega, fun _ => by simp [v6incrementAttempt]; omega⟩
  | some e =>
    by_cases ht : isTransientErrText e = true
    · simp only [ht, if_true]
      refine ⟨by simp [v6close, v6incrementAttempt]; omega, fun hc => ?_⟩
      simp [v6close] at hc
    · simp only [ht, Bool.false_eq_true, if_false]
      by_cases ha : isAuthRejectText e = true
      · simp only [ha, if_true]
        exact ⟨by simp [v6incrementAttempt]; omega, fun _ => by simp [v6incrementAttempt]; omega⟩
      · simp only [ha, Bool.false_eq_true, if_false]
        refine ⟨by simp [v6close, v6incrementAttempt]; omega, fun hc => ?_⟩
        simp [v6close] at hc

theorem v6connectPhase_preserves (s : V6State) (env : V6Env)
    (h : V6Inv s) (hc : s.connected = true → s.sendsOnConn ≤ 3) :
    V6Inv (v6connectPhase s env).1 := by
  unfold v6connectPhase
  by_cases hcon : s.connected = true
  · rw [if_pos hcon]
    exact v6sendPhase_preserves s env (hc hcon) (h.2 hcon)
  · rw [if_neg hcon]
    by_cases hok : env.connectOk = true
    · rw [if_pos hok]
      exact v6sendPhase_preserves ⟨true, 0, 0⟩ env (by simp) (by simp)
    · rw [if_neg hok]
      exact h

theorem v6authenticate_preserves (s : V6State) (env : V6Env) (h : V6Inv s) :
    V6Inv (v6authenticate s env).1 := by
  unfold v6authenticate
  by_cases h4 : s.connected = true ∧ s.attemptsOnConn ≥ 4
  · rw [if_pos h4]
    refine v6connectPhase_preserves (v6close s) env ⟨h.1, ?_⟩ ?_
    · intro hcc
      simp [v6close] at hcc
    · intro hcc
      simp [v6close] at hcc
  · rw [if_neg h4]
    refine v6connectPhase_preserves s env h ?_
    intro hcon
    have heq := h.2 hcon
    have h4n : ¬ s.attemptsOnConn ≥ 4 := fun hx => h4 ⟨hcon, hx⟩
    omega

theorem v6run_inv (inputs : List V6Env) : V6Inv (v6run inputs) := by
  unfold v6run
  induction inputs using List.reverseRecOn with
  | nil => exact ⟨by decide, fun _ => by decide⟩
  | append_singleton xs x ih =>
    rw [List.foldl_append, List.foldl_cons, List.foldl_nil]
    exact v6authenticate_preserves _ x ih

/-- C1, confirmed: for every serialized sequence of Authenticate calls, the
count of login sentences pushed at the current TCP connection never exceeds
4 (so at most 4 authentication sentences are ever sent on one connection),
the source counter attemptsOnConn equals that count while connected, Close
always resets attemptsOnConn to zero, and whenever a connection has already
carried 4 attempts the next Authenticate call closes and reconnects before
sending, leaving at most one sentence on the (new) connection. -/
theorem c1_binary_api_connection_limit (inputs : List V6Env) :
    (v6run inputs).sendsOnConn ≤ 4 ∧
      ((v6run inputs).connected = true →
        (v6run inputs).attemptsOnConn = (v6run inputs).sendsOnConn) ∧
      (∀ s, (v6close s).attemptsOnConn = 0) ∧
      (∀ s env, s.connected = true → s.attemptsOnConn ≥ 4 → env.connectOk = true →
        (v6authenticate s env).1.sendsOnConn ≤ 1) := by
  refine ⟨(v6run_inv inputs).1, (v6run_inv inputs).2, fun s => rfl, fun s env hc h4 hok => ?_⟩
  unfold v6authenticate
  rw [if_pos ⟨hc, h4⟩]
  unfold v6connectPhase
  rw [if_neg (by simp [v6close]), if_pos hok]
  unfold v6sendPhase
  cases env.sendResult with
  | none => simp [v6incrementAttempt]
  | some e =>
    by_cases ht : isTransientErrText e = true
    · simp [ht, v6close, v6incrementAttempt]
    · by_cases ha : isAuthRejectText e = true
      · simp [ht, ha, v6incrementAttempt]
      · simp [ht, ha, v6close, v6incrementAttempt]

/-- Witness for c1_binary_api_connection_limit: six consecutive rejected
attempts on one reachable device force a reconnect after the fourth, ending
with two sentences on the second connection. -/
theorem c1_binary_api_connection_limit_witness :
    (v6run (List.replicate 6 ⟨true, some "!trap"⟩)).sendsOnConn ≤ 4 ∧
      (v6run (List.replicate 6 ⟨true, some "!trap"⟩)).attemptsOnConn =
        (v6run (List.replicate 6 ⟨true, some "!trap"⟩)).sendsOnConn ∧
      (v6authenticate ⟨true, 4, 4⟩ ⟨true, some "!trap"⟩).1.sendsOnConn ≤ 1 :=
  ⟨(c1_binary_api_connection_limit (List.replicate 6 ⟨true, some "!trap"⟩)).1,
    (c1_binary_api_connection_limit (List.replicate 6 ⟨true, some "!trap"⟩)).2.1 (by decide),
    (c1_binary_api_connection_limit []).2.2.2 ⟨true, 4, 4⟩ ⟨true, some "!trap"⟩
      (by decide) (by decide) (by decide)⟩

/-! ## Per-target worker and resume updates (engine.go, part_019, part_020) -/

/-- Engine.isConnectionError (engine.go): substring test on the error text,
the same five markers as the v6 driver uses. -/
def isConnectionError : Option String → Bool
  | none => false
  | some e => isTransientErrText e

/-- Engine.isTimeoutError (engine.go). -/
def isTimeoutError : Option String → Bool
  | none => false
  | some e => strContains e "i/o timeout"

/-- State of a single-worker engine run: the password queue, the
consecutive-error counter, the adaptive timeout (nanoseconds) and the
results published so far, in order, as (success, password) pairs. -/
structure WorkerState where
  queue : PasswordQueue
  consecutiveErrors : Nat
  currentTimeout : Nat
  results : List (Bool × String)
deriving Repr, DecidableEq

/-- Engine.worker (engine.go, the adaptive-timeout version), serialized with
one worker; the script supplies the (success, error) outcome of each
module.Authenticate call, one entry per call.  Each iteration first checks
the consecutive-error threshold, then pulls a password (the empty sentinel
ends the run), then dispatches: a connection error re-queues the password
via Unget, bumps the consecutive-error counter and — for an i/o timeout —
enlarges the adaptive timeout; any other outcome resets the counter and
publishes a Result. -/
def workerRun (maxConsecErrors maxTimeout : Nat) :
    List (Bool × Option String) → WorkerState → WorkerState
  | [], s => s
  | outcome :: script, s =>
    if s.consecutiveErrors ≥ maxConsecErrors then s
    else
      match s.queue.next with
      | (pw, q2) =>
        if pw = "" then s
        else if isConnectionError outcome.2 then
          workerRun maxConsecErrors maxTimeout script
            { s with
              queue := q2.unget,
              consecutiveErrors := s.consecutiveErrors + 1,
              currentTimeout :=
                if isTimeoutError outcome.2 then
                  increaseTimeout s.currentTimeout maxTimeout
                else s.currentTimeout }
        else
          workerRun maxConsecErrors maxTimeout script
            { s with
              queue := q2,
              consecutiveErrors := 0,
              results := s.results ++ [(outcome.1, pw)] }

/-- Results collector of MultiTargetEngine.processTarget: scan the results
in publish order, remembering whether a success was seen and the password
of the latest success. -/
def collectSuccess (results : List (Bool × String)) : Bool × String :=
  results.foldl (fun acc r => if r.1 then (true, r.2) else acc) (false, "")

/-- Modelled from the spec: the current TargetProgress record.  The copy of
resume.go in the snapshot (part_020) carries only the first seven fields;
its callers (part_019, progress_tracker.go) and tests (part_017) use the
current version, absent from src, which per the spec resume-file format
also stores timeout_ms, dead and consecutive_errors. -/
structure TargetProgress where
  ip : String
  port : Nat
  username : String
  passwordsTried : Nat
  completed : Bool
  success : Bool
  foundPassword : String
  timeoutMs : Nat
  dead : Bool
  consecutiveErrors : Nat
deriving Repr, DecidableEq, Inhabited

/-- Modelled from the spec: ResumeState.UpdateTargetProgress (the nine-field
version called by the tracker and tests but absent from src).  Like the
six-field version in part_020 it updates the first record matching
(ip, port), assigns the counters and flags, and overwrites found_password
only on success. -/
def updateTargetProgress (targets : List TargetProgress) (ip : String) (port : Nat)
    (passwordsTried : Nat) (completed : Bool) (success : Bool) (foundPassword : String)
    (timeoutMs : Nat) (dead : Bool) (consecutiveErrors : Nat) : List TargetProgress :=
  match targets with
  | [] => []
  | t :: ts =>
    if t.ip = ip ∧ t.port = port then
      { t with
        passwordsTried := passwordsTried,
        completed := completed,
        success := success,
        foundPassword := if success then foundPassword else t.foundPassword,
        timeoutMs := timeoutMs,
        dead := dead,
        consecutiveErrors := consecutiveErrors } :: ts
    else
      t :: updateTargetProgress ts ip port passwordsTried completed success
        foundPassword timeoutMs dead consecutiveErrors

/-- Final tracker update of MultiTargetEngine.processTarget: total attempts
are the resume offset plus the published results; dead is declared when the
final consecutive-error count reaches the configured maximum (default 5);
completed is always true here. -/
def processTargetFinalUpdate (targets : List TargetProgress) (ip : String) (port : Nat)
    (startPasswordIndex : Nat) (ws : WorkerState) (maxConsecConfigured : Nat) :
    List TargetProgress :=
  let totalAttempts := startPasswordIndex + ws.results.length
  let maxErrors := if maxConsecConfigured = 0 then 5 else maxConsecConfigured
  let isDead := ws.consecutiveErrors ≥ maxErrors
  let sp := collectSuccess ws.results
  updateTargetProgress targets ip port totalAttempts true sp.1 sp.2
    (ws.currentTimeout / 1000000) isDead ws.consecutiveErrors

/-- The data-model invariants C9 claims for one record. -/
def targetProgressInvariant (totalPasswords : Nat) (t : TargetProgress) : Prop :=
  (t.completed = true → t.passwordsTried ≤ totalPasswords) ∧
    (t.success = true → t.completed = true ∧ t.foundPassword ≠ "") ∧
    (t.dead = true → t.completed = true ∧ t.success = false)

/-- The concrete failing run for C9: wordlist ["good", "x"], one worker,
default maxConsecErrors 5, initial timeout 10s, max timeout 30s.  The module
accepts "good", then the target stops responding: five straight i/o-timeout
faults on "x".  The worker exits with one success published and five
consecutive errors, so the final tracker update writes completed, success
and dead all true. -/
def c9FailingScript : List (Bool × Option String) :=
  (true, none) :: List.replicate 5 (false, some "i/o timeout")

/-- Worker start state for the C9 failing run. -/
def c9StartState : WorkerState :=
  ⟨⟨["good", "x"], 0⟩, 0, 10000000000, []⟩

/-- Resume state (one target, fresh) for the C9 failing run. -/
def c9StartTargets : List TargetProgress :=
  [⟨"192.0.2.1", 8728, "admin", 0, false, false, "", 0, false, 0⟩]

/-- C9, code bug: the record the final update writes for the failing run has
dead = true and success = true simultaneously (with completed = true), so the
claimed invariant dead ⇒ ¬success fails on a reachable record.  The spec
(§3 data model and §7 dead-host detection: dead targets are flagged
success = false) is the intent; processTarget computes isDead from the final
consecutive-error count alone, ignoring an earlier success. -/
theorem c9_dead_and_success_record :
    (processTargetFinalUpdate c9StartTargets "192.0.2.1" 8728 0
        (workerRun 5 30000000000 c9FailingScript c9StartState) 5).head?.any
      (fun t => t.dead && t.success && t.completed) = true ∧
      ¬ targetProgressInvariant 2
        ((processTargetFinalUpdate c9StartTargets "192.0.2.1" 8728 0
          (workerRun 5 30000000000 c9FailingScript c9StartState) 5).headI) := by
  constructor
  · decide
  · intro hinv
    have hd := hinv.2.2 (by decide)
    exact absurd hd.2 (by decide)

/-! ## M2 message codec (part_010, webfig M2Message) -/

/-- binary.LittleEndian.PutUint32: four little-endian bytes (uint32
truncation built in). -/
def u32le (x : Nat) : Bytes :=
  [x % 256, x / 256 % 256, x / 65536 % 256, x / 16777216 % 256]

/-- binary.LittleEndian.PutUint16: two little-endian bytes (uint16
truncation built in). -/
def u16le (x : Nat) : Bytes := [x % 256, x / 256 % 256]

/-- binary.LittleEndian.Uint32 (only ever called with at least 4 bytes). -/
def leU32 : Bytes → Nat
  | b0 :: b1 :: b2 :: b3 :: _ => b0 + 256 * (b1 + 256 * (b2 + 256 * b3))
  | _ => 0

/-- binary.LittleEndian.Uint16 (only ever called with at least 2 bytes). -/
def leU16 : Bytes → Nat
  | b0 :: b1 :: _ => b0 + 256 * b1
  | _ => 0

/-- M2 type constants from part_010. -/
def typeBoolean : Nat := 0

/-- Short-length flag bit. -/
def typeShortLength : Nat := 0x01000000

/-- u32 field type bits. -/
def typeUint32 : Nat := 0x08000000

/-- String field type bits. -/
def typeString : Nat := 0x20000000

/-- Raw field type bits. -/
def typeRaw : Nat := 0x30000000

/-- u32-array field type bits. -/
def typeUint32Array : Nat := 0x88000000

/-- M2Message: the five typed field maps.  Go maps iterate in unspecified
order; the lists fix one iteration order per map, which is sound because the
round-trip claims are stated for arbitrary contents and the counterexample
uses a concrete message. -/
structure M2Message where
  bools : List (Nat × Bool)
  u32s : List (Nat × Nat)
  strs : List (Nat × Bytes)
  raws : List (Nat × Bytes)
  arrays : List (Nat × List Nat)
deriving Repr, DecidableEq

/-- NewM2Message. -/
def emptyM2 : M2Message := ⟨[], [], [], [], []⟩

/-- Boolean serialization step of M2Message.Serialize: the short-length bit
carries the value. -/
def serBool (kv : Nat × Bool) : Bytes :=
  u32le (if kv.2 then kv.1 ||| typeShortLength else kv.1)

/-- u32 serialization step of M2Message.Serialize: long form (4-byte value)
above 255, short form (1 byte, value & 0xff) otherwise. -/
def serU32 (kv : Nat × Nat) : Bytes :=
  if kv.2 > 255 then u32le (kv.1 ||| typeUint32) ++ u32le kv.2
  else u32le (kv.1 ||| typeUint32 ||| typeShortLength) ++ [kv.2 &&& 255]

/-- String/raw serialization step of M2Message.Serialize (the two loops are
identical up to the type constant): long form (2-byte little-endian length)
above 255 bytes, short form (1 length byte) otherwise, then the payload. -/
def serStrLike (t : Nat) (kv : Nat × Bytes) : Bytes :=
  if kv.2.length > 255 then
    u32le (kv.1 ||| t) ++ u16le kv.2.length ++ kv.2
  else
    u32le (kv.1 ||| t ||| typeShortLength) ++ [kv.2.length] ++ kv.2

/-- u32-array serialization step of M2Message.Serialize: header, 2-byte
little-endian count, then the little-endian entries. -/
def serArr (kv : Nat × List Nat) : Bytes :=
  u32le (kv.1 ||| typeUint32Array) ++ u16le kv.2.length ++ kv.2.flatMap u32le

/-- M2Message.Serialize: booleans, u32s, strings, raw fields, then u32
arrays. -/
def serializeM2 (m : M2Message) : Bytes :=
  m.bools.flatMap serBool ++ m.u32s.flatMap serU32 ++
    m.strs.flatMap (serStrLike typeString) ++ m.raws.flatMap (serStrLike typeRaw) ++
    m.arrays.flatMap serArr

/-- Go map assignment m[k] = v on an association list. -/
def assocSet {α : Type} : List (Nat × α) → Nat → α → List (Nat × α)
  | [], k, v => [(k, v)]
  | (k1, v1) :: t, k, v =>
    if k1 = k then (k, v) :: t else (k1, v1) :: assocSet t k v

/-- Go map read with the zero default. -/
def assocGetD {α : Type} : List (Nat × α) → Nat → α → α
  | [], _, d => d
  | (k1, v1) :: t, k, d => if k1 = k then v1 else assocGetD t k d

/-- The append-assignment m[k] = append(m[k], vs...) used for u32 arrays. -/
def assocAppendArr (l : List (Nat × List Nat)) (k : Nat) (vs : List Nat) :
    List (Nat × List Nat) :=
  assocSet l k (assocGetD l k [] ++ vs)

/-- handleStringOrRaw from part_010: needs at least 3 bytes, reads a 2-byte
little-endian length which the short form overrides with the first byte,
then bounds-checks and splits off the payload. -/
def handleStringOrRaw (varTypeName : Nat) (data : Bytes) :
    Option (Bytes × Bytes) :=
  if data.length ≤ 2 then none
  else if varTypeName &&& typeShortLength ≠ 0 then
    let len := data.headI
    let rest := data.drop 1
    if rest.length < len then none else some (rest.take len, rest.drop len)
  else
    let len := leU16 data
    let rest := data.drop 2
    if rest.length < len then none else some (rest.take len, rest.drop len)

theorem handleStringOrRaw_suffix_le (varTypeName : Nat) (data : Bytes)
    (payload rest2 : Bytes)
    (h : handleStringOrRaw varTypeName data = some (payload, rest2)) :
    rest2.length ≤ data.length := by
  unfold handleStringOrRaw at h
  by_cases h2 : data.length ≤ 2
  · rw [if_pos h2] at h
    cases h
  · rw [if_neg h2] at h
    by_cases hs : varTypeName &&& typeShortLength ≠ 0
    · rw [if_pos hs] at h
      simp only at h
      by_cases hb : (data.drop 1).length < data.headI
      · rw [if_pos hb] at h
        cases h
      · rw [if_neg hb] at h
        have := congrArg (fun p => (Option.map Prod.snd p)) h
        simp at this
        subst this
        simp [List.length_drop]
    · rw [if_neg hs] at h
      simp only at h
      by_cases hb : (data.drop 2).length < leU16 data
      · rw [if_pos hb] at h
        cases h
      · rw [if_neg hb] at h
        have := congrArg (fun p => (Option.map Prod.snd p)) h
        simp at this
        subst this
        simp [List.length_drop]

/-- Per-entry loop of the u32-array branch of ParseM2Message: each iteration
performs the append-assignment msg.ArrayU32[varName] = append(..., LE.Uint32(data))
for one 4-byte little-endian entry and advances the data by 4 bytes; with a
zero entry count the loop body never runs, so no assignment happens and the
map key is not created. Returns the updated map and the remaining data. -/
def appendU32Entries : Nat → Bytes → List (Nat × List Nat) → Nat →
    List (Nat × List Nat) × Bytes
  | 0, data, arrays, _ => (arrays, data)
  | n + 1, data, arrays, varName =>
    appendU32Entries n (data.drop 4) (assocAppendArr arrays varName [leU32 data]) varName

theorem appendU32Entries_snd_le (n : Nat) (data : Bytes)
    (arrays : List (Nat × List Nat)) (k : Nat) :
    (appendU32Entries n data arrays k).2.length ≤ data.length := by
  induction n generalizing data arrays with
  | zero => simp [appendU32Entries]
  | succ m ih =>
    rw [appendU32Entries]
    have h1 := ih (data.drop 4) (assocAppendArr arrays k [leU32 data])
    have h2 : (data.drop 4).length = data.length - 4 := by
      rw [List.length_drop]
    omega

/-- Field-consuming loop of ParseM2Message: while more than 4 bytes remain,
read the 4-byte little-endian header, split type bits and 24-bit name, and
dispatch; unknown type bits reject the message. -/
def parseM2Loop (data : Bytes) (msg : M2Message) : Option M2Message :=
  if hgt : data.length > 4 then
    if leU32 data &&& 0xf8000000 = typeBoolean then
      parseM2Loop (data.drop 4)
        { msg with bools := (assocSet msg.bools (leU32 data &&& 0x00ffffff) (decide (leU32 data &&& typeShortLength ≠ 0))) }
    else if leU32 data &&& 0xf8000000 = typeUint32 then
      if leU32 data &&& typeShortLength ≠ 0 then
        if (data.drop 4).length = 0 then none
        else parseM2Loop ((data.drop 4).drop 1)
          { msg with u32s := (assocSet msg.u32s (leU32 data &&& 0x00ffffff) (data.drop 4).headI) }
      else
        if (data.drop 4).length < 4 then none
        else parseM2Loop ((data.drop 4).drop 4)
          { msg with u32s := (assocSet msg.u32s (leU32 data &&& 0x00ffffff) (leU32 (data.drop 4))) }
    else if leU32 data &&& 0xf8000000 = typeString then
      match hh : handleStringOrRaw (leU32 data) (data.drop 4) with
      | none => none
      | some (payload, rest2) =>
        parseM2Loop rest2
          { msg with strs := (assocSet msg.strs (leU32 data &&& 0x00ffffff) payload) }
    else if leU32 data &&& 0xf8000000 = typeRaw then
      match hh : handleStringOrRaw (leU32 data) (data.drop 4) with
      | none => none
      | some (payload, rest2) =>
        parseM2Loop rest2
          { msg with raws := (assocSet msg.raws (leU32 data &&& 0x00ffffff) payload) }
    else if leU32 data &&& 0xf8000000 = typeUint32Array then
      if (data.drop 4).length ≤ 2 then none
      else
        if ((data.drop 4).drop 2).length < leU16 (data.drop 4) * 4 then none
        else parseM2Loop (appendU32Entries (leU16 (data.drop 4)) ((data.drop 4).drop 2) msg.arrays (leU32 data &&& 0x00ffffff)).2
          { msg with arrays := (appendU32Entries (leU16 (data.drop 4)) ((data.drop 4).drop 2) msg.arrays (leU32 data &&& 0x00ffffff)).1 }
    else none
  else some msg
termination_by data.length
decreasing_by
  · simp [List.length_drop]; omega
  · simp [List.length_drop]; omega
  · simp [List.length_drop]; omega
  · have h1 := handleStringOrRaw_suffix_le _ _ _ _ hh
    simp [List.length_drop] at h1
    omega
  · have h1 := handleStringOrRaw_suffix_le _ _ _ _ hh
    simp [List.length_drop] at h1
    omega
  · have h1 := appendU32Entries_snd_le (leU16 (data.drop 4)) ((data.drop 4).drop 2)
      msg.arrays (leU32 data &&& 0x00ffffff)
    have h2 : ((data.drop 4).drop 2).length = data.length - 6 := by
      rw [List.length_drop, List.length_drop]
      omega
    omega

/-- ParseM2Message: messages shorter than 4 bytes are rejected; a leading
frame whose third and fourth bytes are the characters M and 2 is skipped;
then the field loop runs. -/
def parseM2Message (data : Bytes) (msg : M2Message) : Option M2Message :=
  if data.length < 4 then none
  else if data.length ≥ 4 ∧ data.getD 2 0 = 77 ∧ data.getD 3 0 = 50 then
    parseM2Loop (data.drop 4) msg
  else parseM2Loop data msg

theorem lor_high_add (t1 t2 k : Nat) (hk : k < 2^24) :
    (2^24 * t1 + k) ||| 2^24 * t2 = 2^24 * (t1 ||| t2) + k := by
  apply Nat.eq_of_testBit_eq
  intro i
  rw [Nat.testBit_or, Nat.testBit_mul_pow_two_add t1 hk i,
    Nat.testBit_mul_pow_two_add (t1 ||| t2) hk i, Nat.testBit_mul_pow_two]
  by_cases hi : i < 24
  · simp [hi, show ¬ i ≥ 24 by omega]
  · simp [hi, show i ≥ 24 by omega, Nat.testBit_or]

theorem lor_type (k t : Nat) (hk : k < 2^24) : k ||| 2^24 * t = 2^24 * t + k := by
  have h := lor_high_add 0 t k hk
  simpa using h

theorem header_lt_two_pow_32 (t k : Nat) (ht : t < 256) (hk : k < 2^24) :
    2^24 * t + k < 2^32 := by
  omega

theorem leU32_u32le (x : Nat) (rest : Bytes) :
    leU32 (u32le x ++ rest) = x % 2^32 := by
  simp only [u32le, List.cons_append, List.nil_append, leU32]
  omega

theorem leU16_u16le (x : Nat) (rest : Bytes) :
    leU16 (u16le x ++ rest) = x % 2^16 := by
  simp only [u16le, List.cons_append, List.nil_append, leU16]
  omega

theorem header_and_name (t k : Nat) (hk : k < 2^24) :
    (2^24 * t + k) &&& 0x00ffffff = k := by
  have h : (0x00ffffff : Nat) = 2^24 - 1 := by norm_num
  rw [h, Nat.and_pow_two_sub_one_eq_mod]
  omega

theorem header_and_short (t k : Nat) (hk : k < 2^24) :
    (2^24 * t + k) &&& typeShortLength = 2^24 * (t % 2) := by
  have h : typeShortLength = 2^24 := by norm_num [typeShortLength]
  rw [h, Nat.and_two_pow, Nat.testBit_mul_pow_two_add t hk 24]
  simp only [Nat.lt_irrefl, if_false, Nat.sub_self]
  rw [Nat.testBit_zero]
  rcases Nat.mod_two_eq_zero_or_one t with h2 | h2 <;> simp [h2]

theorem header_and_high (t k : Nat) (ht : t < 256) (hk : k < 2^24) :
    (2^24 * t + k) &&& 0xf8000000 = 2^24 * (t / 8 * 8) := by
  apply Nat.eq_of_testBit_eq
  intro i
  rw [Nat.testBit_and, Nat.testBit_mul_pow_two_add t hk i]
  have hmask : (0xf8000000 : Nat) = 2^27 * 31 := by norm_num
  have hr : (2:Nat)^24 * (t / 8 * 8) = 2^27 * (t / 8) := by ring
  rw [hmask, Nat.testBit_mul_pow_two, hr, Nat.testBit_mul_pow_two]
  by_cases h27 : i < 27
  · by_cases h24 : i < 24
    · simp [h24, show ¬ i ≥ 27 by omega]
    · simp [h24, show ¬ i ≥ 27 by omega]
  · have hge24 : ¬ i < 24 := by omega
    have hge27 : i ≥ 27 := by omega
    have h31 : (31 : Nat) = 2^5 - 1 := by norm_num
    have hdiv : t / 8 = t >>> 3 := by
      simp [Nat.shiftRight_eq_div_pow]
    rw [h31, Nat.testBit_two_pow_sub_one, hdiv, Nat.testBit_shiftRight]
    by_cases h32 : i < 32
    · have h5 : i - 27 < 5 := by omega
      have hidx : 3 + (i - 27) = i - 24 := by omega
      simp [hge24, hge27, h5, hidx]
    · have h5 : ¬ (i - 27 < 5) := by omega
      have hlt : t < 2^(3 + (i - 27)) := by
        have h256 : (256:Nat) = 2^8 := by norm_num
        exact lt_of_lt_of_le ht (by
          rw [h256]
          exact Nat.pow_le_pow_right (by omega) (by omega))
      simp [hge24, hge27, h5, Nat.testBit_lt_two_pow hlt]

/-- One serialized M2 field, in the order Serialize walks the maps. -/
inductive M2Field where
  | boolF (k : Nat) (v : Bool)
  | u32F (k : Nat) (v : Nat)
  | strF (k : Nat) (v : Bytes)
  | rawF (k : Nat) (v : Bytes)
  | arrF (k : Nat) (v : List Nat)
deriving Repr, DecidableEq

/-- Byte encoding of one field, exactly the per-entry body of Serialize. -/
def encField : M2Field → Bytes
  | .boolF k v => serBool (k, v)
  | .u32F k v => serU32 (k, v)
  | .strF k v => serStrLike typeString (k, v)
  | .rawF k v => serStrLike typeRaw (k, v)
  | .arrF k v => serArr (k, v)

/-- Effect of parsing one field into the message under construction. -/
def applyField (msg : M2Message) : M2Field → M2Message
  | .boolF k v => { msg with bools := assocSet msg.bools k v }
  | .u32F k v => { msg with u32s := assocSet msg.u32s k v }
  | .strF k v => { msg with strs := assocSet msg.strs k v }
  | .rawF k v => { msg with raws := assocSet msg.raws k v }
  | .arrF k v => { msg with arrays := assocAppendArr msg.arrays k v }

/-- Well-formedness of one field: 24-bit name, uint32 values, uint16-sized
payloads — the ranges the Go types and the claim impose — and, for a u32
array, at least one entry: with a zero entry count the parser's per-entry
loop never runs, so the map key is not recreated and the round trip loses
it. -/
def fieldOK : M2Field → Prop
  | .boolF k _ => k < 2^24
  | .u32F k v => k < 2^24 ∧ v < 2^32
  | .strF k v => k < 2^24 ∧ v.length < 2^16
  | .rawF k v => k < 2^24 ∧ v.length < 2^16
  | .arrF k v => k < 2^24 ∧ v.length < 2^16 ∧ 1 ≤ v.length ∧ ∀ x ∈ v, x < 2^32

/-- Condition under which the parser consumes one field followed by rest:
the loop guard needs a nonempty tail after a boolean header, and
handleStringOrRaw and the array branch need their minimum byte counts. -/
def fieldStepOK : M2Field → Bytes → Prop
  | .boolF _ _, rest => rest ≠ []
  | .u32F _ _, _ => True
  | .strF _ v, rest => 2 ≤ v.length + rest.length
  | .rawF _ v, rest => 2 ≤ v.length + rest.length
  | .arrF _ v, rest => 1 ≤ v.length + rest.length

/-- Condition on the final serialized field of a message under which the
parser neither drops nor rejects it. -/
def fieldTailOK : M2Field → Prop
  | .boolF _ _ => False
  | .u32F _ _ => True
  | .strF _ v => 2 ≤ v.length
  | .rawF _ v => 2 ≤ v.length
  | .arrF _ v => 1 ≤ v.length

/-- The field list of a message, in serialization order. -/
def fieldsOf (m : M2Message) : List M2Field :=
  m.bools.map (fun kv => M2Field.boolF kv.1 kv.2) ++
    m.u32s.map (fun kv => M2Field.u32F kv.1 kv.2) ++
    m.strs.map (fun kv => M2Field.strF kv.1 kv.2) ++
    m.raws.map (fun kv => M2Field.rawF kv.1 kv.2) ++
    m.arrays.map (fun kv => M2Field.arrF kv.1 kv.2)

theorem serializeM2_eq_fields (m : M2Message) :
    serializeM2 m = (fieldsOf m).flatMap encField := by
  simp only [serializeM2, fieldsOf, List.flatMap_append, List.flatMap_map]
  rfl

theorem u32le_append_drop4 (x : Nat) (tail : Bytes) :
    (u32le x ++ tail).drop 4 = tail := by
  simp [u32le]

theorem u32le_append_length (x : Nat) (tail : Bytes) :
    (u32le x ++ tail).length = 4 + tail.length := by
  simp [u32le]
  omega

theorem leU32_header (t k : Nat) (tail : Bytes) (ht : t < 256) (hk : k < 2^24) :
    leU32 (u32le (2^24 * t + k) ++ tail) = 2^24 * t + k := by
  rw [leU32_u32le]
  exact Nat.mod_eq_of_lt (header_lt_two_pow_32 t k ht hk)

theorem drop_append_of_length {α : Type} (a b : List α) (n : Nat)
    (h : a.length = n) : (a ++ b).drop n = b := by
  subst h
  exact List.drop_left a b

theorem take_append_of_length {α : Type} (a b : List α) (n : Nat)
    (h : a.length = n) : (a ++ b).take n = a := by
  subst h
  exact List.take_left a b

theorem flatMap_u32le_length (v : List Nat) :
    (v.flatMap u32le).length = 4 * v.length := by
  induction v with
  | nil => rfl
  | cons x xs ih =>
    simp [u32le, ih]
    omega

theorem assocGetD_set_self {α : Type} (l : List (Nat × α)) (k : Nat) (v d : α) :
    assocGetD (assocSet l k v) k d = v := by
  induction l with
  | nil => simp [assocSet, assocGetD]
  | cons kv t ih =>
    cases kv with
    | mk k1 v1 =>
      by_cases h : k1 = k
      · simp [assocSet, assocGetD, h]
      · simp [assocSet, assocGetD, h, ih]

theorem assocSet_set_self {α : Type} (l : List (Nat × α)) (k : Nat) (v w : α) :
    assocSet (assocSet l k v) k w = assocSet l k w := by
  induction l with
  | nil => simp [assocSet]
  | cons kv t ih =>
    cases kv with
    | mk k1 v1 =>
      by_cases h : k1 = k
      · simp [assocSet, h]
      · simp [assocSet, h, ih]

theorem appendU32Entries_go (v : List Nat) (rest : Bytes)
    (A : List (Nat × List Nat)) (k : Nat) :
    ∀ w : List Nat, (∀ x ∈ v, x < 2^32) →
      appendU32Entries v.length (v.flatMap u32le ++ rest) (assocSet A k w) k =
        (assocSet A k (w ++ v), rest) := by
  induction v with
  | nil =>
    intro w hv
    simp [appendU32Entries]
  | cons x xs ih =>
    intro w hv
    have hx : x < 2^32 := hv x (List.mem_cons_self x xs)
    have hxs : ∀ y ∈ xs, y < 2^32 := fun y hy => hv y (List.mem_cons_of_mem x hy)
    show appendU32Entries (xs.length + 1) ((u32le x ++ xs.flatMap u32le) ++ rest)
      (assocSet A k w) k = _
    rw [List.append_assoc, appendU32Entries]
    rw [leU32_u32le, Nat.mod_eq_of_lt hx, u32le_append_drop4]
    have happ : assocAppendArr (assocSet A k w) k [x] = assocSet A k (w ++ [x]) := by
      rw [assocAppendArr, assocGetD_set_self, assocSet_set_self]
    rw [happ, ih (w ++ [x]) hxs, List.append_assoc]
    rfl

theorem appendU32Entries_nonempty (x : Nat) (xs : List Nat) (rest : Bytes)
    (arrays : List (Nat × List Nat)) (k : Nat)
    (hv : ∀ y ∈ x :: xs, y < 2^32) :
    appendU32Entries (x :: xs).length ((x :: xs).flatMap u32le ++ rest) arrays k =
      (assocAppendArr arrays k (x :: xs), rest) := by
  have hx : x < 2^32 := hv x (List.mem_cons_self x xs)
  have hxs : ∀ y ∈ xs, y < 2^32 := fun y hy => hv y (List.mem_cons_of_mem x hy)
  show appendU32Entries (xs.length + 1) ((u32le x ++ xs.flatMap u32le) ++ rest)
    arrays k = _
  rw [List.append_assoc, appendU32Entries]
  rw [leU32_u32le, Nat.mod_eq_of_lt hx, u32le_append_drop4]
  have happ : assocAppendArr arrays k [x] =
      assocSet arrays k (assocGetD arrays k [] ++ [x]) := rfl
  rw [happ, appendU32Entries_go xs rest arrays k (assocGetD arrays k [] ++ [x]) hxs]
  rw [assocAppendArr, List.append_assoc]
  rfl

theorem parse_step_bool (k : Nat) (v : Bool) (rest : Bytes) (msg : M2Message)
    (hk : k < 2^24) (hrest : rest ≠ []) :
    parseM2Loop (encField (.boolF k v) ++ rest) msg =
      parseM2Loop rest (applyField msg (.boolF k v)) := by
  have hrl : 1 ≤ rest.length := by
    cases rest with
    | nil => exact absurd rfl hrest
    | cons a t => simp
  cases v with
  | true =>
    have hsl : typeShortLength = 2^24 * 1 := by norm_num [typeShortLength]
    have hH : k ||| typeShortLength = 2^24 * 1 + k := by
      rw [hsl]
      exact lor_type k 1 hk
    show parseM2Loop (u32le (k ||| typeShortLength) ++ rest) msg = _
    rw [hH]
    have hlen : (u32le (2^24 * 1 + k) ++ rest).length > 4 := by
      rw [u32le_append_length]
      omega
    have hle : leU32 (u32le (2^24 * 1 + k) ++ rest) = 2^24 * 1 + k :=
      leU32_header 1 k rest (by norm_num) hk
    have htype : (2^24 * 1 + k) &&& 0xf8000000 = typeBoolean := by
      rw [header_and_high 1 k (by norm_num) hk]
      norm_num [typeBoolean]
    have hname : (2^24 * 1 + k) &&& 0x00ffffff = k := header_and_name 1 k hk
    have hshort : (2^24 * 1 + k) &&& typeShortLength = 2^24 * 1 :=
      header_and_short 1 k hk
    rw [parseM2Loop.eq_def, dif_pos hlen, hle, htype, if_pos rfl,
      u32le_append_drop4, hname, hshort]
    have hdec : decide (2^24 * 1 ≠ 0) = true := by norm_num
    rw [hdec]
    rfl
  | false =>
    show parseM2Loop (u32le k ++ rest) msg = _
    have hk0 : 2^24 * 0 + k = k := by ring
    have hlen : (u32le k ++ rest).length > 4 := by
      rw [u32le_append_length]
      omega
    have hle : leU32 (u32le k ++ rest) = k := by
      have := leU32_header 0 k rest (by norm_num) hk
      rwa [hk0] at this
    have htype : k &&& 0xf8000000 = typeBoolean := by
      have := header_and_high 0 k (by norm_num) hk
      rw [hk0] at this
      rw [this]
      norm_num [typeBoolean]
    have hname : k &&& 0x00ffffff = k := by
      have := header_and_name 0 k hk
      rwa [hk0] at this
    have hshort : k &&& typeShortLength = 0 := by
      have := header_and_short 0 k hk
      rw [hk0] at this
      rw [this]
      norm_num
    rw [parseM2Loop.eq_def, dif_pos hlen, hle, htype, if_pos rfl,
      u32le_append_drop4, hname, hshort]
    have hdec : decide ((0:Nat) ≠ 0) = false := by norm_num
    rw [hdec]
    rfl

theorem parse_step_u32 (k v : Nat) (rest : Bytes) (msg : M2Message)
    (hk : k < 2^24) (hv : v < 2^32) :
    parseM2Loop (encField (.u32F k v) ++ rest) msg =
      parseM2Loop rest (applyField msg (.u32F k v)) := by
  have hu : typeUint32 = 2^24 * 8 := by norm_num [typeUint32]
  have hsl : typeShortLength = 2^24 * 1 := by norm_num [typeShortLength]
  by_cases h255 : v > 255
  · have henc : encField (.u32F k v) = u32le (k ||| typeUint32) ++ u32le v := by
      rw [encField, serU32, if_pos h255]
    have hH : k ||| typeUint32 = 2^24 * 8 + k := by
      rw [hu]
      exact lor_type k 8 hk
    rw [henc, hH, List.append_assoc]
    have hlen : (u32le (2^24 * 8 + k) ++ (u32le v ++ rest)).length > 4 := by
      rw [u32le_append_length]
      simp [u32le]
    have hle : leU32 (u32le (2^24 * 8 + k) ++ (u32le v ++ rest)) = 2^24 * 8 + k :=
      leU32_header 8 k _ (by norm_num) hk
    have htype : (2^24 * 8 + k) &&& 0xf8000000 = typeUint32 := by
      rw [header_and_high 8 k (by norm_num) hk, hu]
    have hname : (2^24 * 8 + k) &&& 0x00ffffff = k := header_and_name 8 k hk
    have hshort : (2^24 * 8 + k) &&& typeShortLength = 0 := by
      rw [header_and_short 8 k hk]
      norm_num
    rw [parseM2Loop.eq_def, dif_pos hlen, hle, htype,
      if_neg (by norm_num [typeUint32, typeBoolean]), if_pos rfl, hshort,
      u32le_append_drop4]
    simp only [ne_eq, not_true_eq_false, not_false_eq_true, if_false, if_true]
    rw [u32le_append_drop4, leU32_u32le, Nat.mod_eq_of_lt hv, hname]
    rfl
  · have henc : encField (.u32F k v) =
        u32le (k ||| typeUint32 ||| typeShortLength) ++ [v &&& 255] := by
      rw [encField, serU32, if_neg h255]
    have hH : k ||| typeUint32 ||| typeShortLength = 2^24 * 9 + k := by
      rw [hu, hsl, lor_type k 8 hk, lor_high_add 8 1 k hk]
      have h89 : (8 ||| 1 : Nat) = 9 := rfl
      rw [h89]
    rw [henc, hH, List.append_assoc, List.cons_append, List.nil_append]
    have hlen : (u32le (2^24 * 9 + k) ++ ((v &&& 255) :: rest)).length > 4 := by
      rw [u32le_append_length]
      simp
    have hle : leU32 (u32le (2^24 * 9 + k) ++ ((v &&& 255) :: rest)) = 2^24 * 9 + k :=
      leU32_header 9 k _ (by norm_num) hk
    have htype : (2^24 * 9 + k) &&& 0xf8000000 = typeUint32 := by
      rw [header_and_high 9 k (by norm_num) hk, hu]
    have hname : (2^24 * 9 + k) &&& 0x00ffffff = k := header_and_name 9 k hk
    have hshort : (2^24 * 9 + k) &&& typeShortLength = 2^24 := by
      rw [header_and_short 9 k hk]
      norm_num
    have hv255 : v &&& 255 = v := by
      have h8 : (255 : Nat) = 2^8 - 1 := by norm_num
      rw [h8, Nat.and_pow_two_sub_one_eq_mod]
      omega
    rw [parseM2Loop.eq_def, dif_pos hlen, hle, htype,
      if_neg (by norm_num [typeUint32, typeBoolean]), if_pos rfl, hshort,
      u32le_append_drop4]
    simp only [ne_eq, List.length_cons, Nat.succ_ne_zero, if_false]
    simp only [List.headI, List.drop_succ_cons, List.drop_zero]
    rw [hname, hv255]
    rfl

theorem handle_short_form (H : Nat) (v rest : Bytes)
    (hbit : H &&& typeShortLength ≠ 0)
    (hstep : 2 ≤ v.length + rest.length) :
    handleStringOrRaw H ((v.length :: v) ++ rest) = some (v, rest) := by
  unfold handleStringOrRaw
  rw [if_neg (by simp; omega)]
  rw [if_pos hbit]
  simp only [List.cons_append, List.headI, List.drop_succ_cons, List.drop_zero]
  rw [if_neg (by simp)]
  rw [take_append_of_length v rest _ rfl, drop_append_of_length v rest _ rfl]

theorem handle_long_form (H : Nat) (v rest : Bytes)
    (hbit : ¬ H &&& typeShortLength ≠ 0)
    (hlen : v.length < 2^16) (hpos : 1 ≤ v.length) :
    handleStringOrRaw H ((u16le v.length ++ v) ++ rest) = some (v, rest) := by
  unfold handleStringOrRaw
  rw [if_neg (by
    simp only [List.length_append, u16le, List.length_cons, List.length_nil]
    omega)]
  rw [if_neg hbit]
  simp only
  rw [List.append_assoc, leU16_u16le, Nat.mod_eq_of_lt hlen]
  have hdrop2 : (u16le v.length ++ (v ++ rest)).drop 2 = v ++ rest := by
    simp [u16le]
  rw [hdrop2]
  rw [if_neg (by simp)]
  rw [take_append_of_length v rest _ rfl, drop_append_of_length v rest _ rfl]

theorem parse_step_str (k : Nat) (v : Bytes) (rest : Bytes) (msg : M2Message)
    (hk : k < 2^24) (hlen : v.length < 2^16)
    (hstep : 2 ≤ v.length + rest.length) :
    parseM2Loop (encField (.strF k v) ++ rest) msg =
      parseM2Loop rest (applyField msg (.strF k v)) := by
  have hs : typeString = 2^24 * 32 := by norm_num [typeString]
  have hsl : typeShortLength = 2^24 * 1 := by norm_num [typeShortLength]
  by_cases h255 : v.length > 255
  · have henc : encField (.strF k v) = u32le (k ||| typeString) ++ u16le v.length ++ v := by
      rw [encField, serStrLike, if_pos h255]
    have hH : k ||| typeString = 2^24 * 32 + k := by
      rw [hs]
      exact lor_type k 32 hk
    rw [henc, hH, List.append_assoc, List.append_assoc]
    have hlendata : (u32le (2^24 * 32 + k) ++ (u16le v.length ++ (v ++ rest))).length > 4 := by
      rw [u32le_append_length]
      simp [u16le]
    have hle : leU32 (u32le (2^24 * 32 + k) ++ (u16le v.length ++ (v ++ rest))) =
        2^24 * 32 + k := leU32_header 32 k _ (by norm_num) hk
    have htype : (2^24 * 32 + k) &&& 0xf8000000 = typeString := by
      rw [header_and_high 32 k (by norm_num) hk, hs]
    have hname : (2^24 * 32 + k) &&& 0x00ffffff = k := header_and_name 32 k hk
    have hshort : (2^24 * 32 + k) &&& typeShortLength = 0 := by
      rw [header_and_short 32 k hk]
      norm_num
    have hhandle : handleStringOrRaw (2^24 * 32 + k)
        ((u32le (2^24 * 32 + k) ++ (u16le v.length ++ (v ++ rest))).drop 4) =
        some (v, rest) := by
      rw [u32le_append_drop4, ← List.append_assoc]
      exact handle_long_form _ v rest (by rw [hshort]; simp) hlen (by omega)
    rw [parseM2Loop.eq_def, dif_pos hlendata, hle, htype,
      if_neg (by norm_num [typeString, typeBoolean]),
      if_neg (by norm_num [typeString, typeUint32]), if_pos rfl]
    rw [hhandle, hname]
    rfl
  · have henc : encField (.strF k v) =
        u32le (k ||| typeString ||| typeShortLength) ++ [v.length] ++ v := by
      rw [encField, serStrLike, if_neg h255]
    have hH : k ||| typeString ||| typeShortLength = 2^24 * 33 + k := by
      rw [hs, hsl, lor_type k 32 hk, lor_high_add 32 1 k hk]
      have h321 : (32 ||| 1 : Nat) = 33 := rfl
      rw [h321]
    rw [henc, hH, List.append_assoc, List.append_assoc]
    have hlendata : (u32le (2^24 * 33 + k) ++ ([v.length] ++ (v ++ rest))).length > 4 := by
      rw [u32le_append_length]
      simp
    have hle : leU32 (u32le (2^24 * 33 + k) ++ ([v.length] ++ (v ++ rest))) =
        2^24 * 33 + k := leU32_header 33 k _ (by norm_num) hk
    have htype : (2^24 * 33 + k) &&& 0xf8000000 = typeString := by
      rw [header_and_high 33 k (by norm_num) hk, hs]
    have hname : (2^24 * 33 + k) &&& 0x00ffffff = k := header_and_name 33 k hk
    have hshort : (2^24 * 33 + k) &&& typeShortLength = 2^24 := by
      rw [header_and_short 33 k hk]
      norm_num
    have hhandle : handleStringOrRaw (2^24 * 33 + k)
        ((u32le (2^24 * 33 + k) ++ ([v.length] ++ (v ++ rest))).drop 4) =
        some (v, rest) := by
      rw [u32le_append_drop4, ← List.append_assoc]
      exact handle_short_form _ v rest (by rw [hshort]; norm_num) hstep
    rw [parseM2Loop.eq_def, dif_pos hlendata, hle, htype,
      if_neg (by norm_num [typeString, typeBoolean]),
      if_neg (by norm_num [typeString, typeUint32]), if_pos rfl]
    rw [hhandle, hname]
    rfl

theorem parse_step_raw (k : Nat) (v : Bytes) (rest : Bytes) (msg : M2Message)
    (hk : k < 2^24) (hlen : v.length < 2^16)
    (hstep : 2 ≤ v.length + rest.length) :
    parseM2Loop (encField (.rawF k v) ++ rest) msg =
      parseM2Loop rest (applyField msg (.rawF k v)) := by
  have hs : typeRaw = 2^24 * 48 := by norm_num [typeRaw]
  have hsl : typeShortLength = 2^24 * 1 := by norm_num [typeShortLength]
  by_cases h255 : v.length > 255
  · have henc : encField (.rawF k v) = u32le (k ||| typeRaw) ++ u16le v.length ++ v := by
      rw [encField, serStrLike, if_pos h255]
    have hH : k ||| typeRaw = 2^24 * 48 + k := by
      rw [hs]
      exact lor_type k 48 hk
    rw [henc, hH, List.append_assoc, List.append_assoc]
    have hlendata : (u32le (2^24 * 48 + k) ++ (u16le v.length ++ (v ++ rest))).length > 4 := by
      rw [u32le_append_length]
      simp [u16le]
    have hle : leU32 (u32le (2^24 * 48 + k) ++ (u16le v.length ++ (v ++ rest))) =
        2^24 * 48 + k := leU32_header 48 k _ (by norm_num) hk
    have htype : (2^24 * 48 + k) &&& 0xf8000000 = typeRaw := by
      rw [header_and_high 48 k (by norm_num) hk, hs]
    have hname : (2^24 * 48 + k) &&& 0x00ffffff = k := header_and_name 48 k hk
    have hshort : (2^24 * 48 + k) &&& typeShortLength = 0 := by
      rw [header_and_short 48 k hk]
      norm_num
    have hhandle : handleStringOrRaw (2^24 * 48 + k)
        ((u32le (2^24 * 48 + k) ++ (u16le v.length ++ (v ++ rest))).drop 4) =
        some (v, rest) := by
      rw [u32le_append_drop4, ← List.append_assoc]
      exact handle_long_form _ v rest (by rw [hshort]; simp) hlen (by omega)
    rw [parseM2Loop.eq_def, dif_pos hlendata, hle, htype,
      if_neg (by norm_num [typeRaw, typeBoolean]),
      if_neg (by norm_num [typeRaw, typeUint32]),
      if_neg (by norm_num [typeRaw, typeString]), if_pos rfl]
    rw [hhandle, hname]
    rfl
  · have henc : encField (.rawF k v) =
        u32le (k ||| typeRaw ||| typeShortLength) ++ [v.length] ++ v := by
      rw [encField, serStrLike, if_neg h255]
    have hH : k ||| typeRaw ||| typeShortLength = 2^24 * 49 + k := by
      rw [hs, hsl, lor_type k 48 hk, lor_high_add 48 1 k hk]
      have h481 : (48 ||| 1 : Nat) = 49 := rfl
      rw [h481]
    rw [henc, hH, List.append_assoc, List.append_assoc]
    have hlendata : (u32le (2^24 * 49 + k) ++ ([v.length] ++ (v ++ rest))).length > 4 := by
      rw [u32le_append_length]
      simp
    have hle : leU32 (u32le (2^24 * 49 + k) ++ ([v.length] ++ (v ++ rest))) =
        2^24 * 49 + k := leU32_header 49 k _ (by norm_num) hk
    have htype : (2^24 * 49 + k) &&& 0xf8000000 = typeRaw := by
      rw [header_and_high 49 k (by norm_num) hk, hs]
    have hname : (2^24 * 49 + k) &&& 0x00ffffff = k := header_and_name 49 k hk
    have hshort : (2^24 * 49 + k) &&& typeShortLength = 2^24 := by
      rw [header_and_short 49 k hk]
      norm_num
    have hhandle : handleStringOrRaw (2^24 * 49 + k)
        ((u32le (2^24 * 49 + k) ++ ([v.length] ++ (v ++ rest))).drop 4) =
        some (v, rest) := by
      rw [u32le_append_drop4, ← List.append_assoc]
      exact handle_short_form _ v rest (by rw [hshort]; norm_num) hstep
    rw [parseM2Loop.eq_def, dif_pos hlendata, hle, htype,
      if_neg (by norm_num [typeRaw, typeBoolean]),
      if_neg (by norm_num [typeRaw, typeUint32]),
      if_neg (by norm_num [typeRaw, typeString]), if_pos rfl]
    rw [hhandle, hname]
    rfl

theorem parse_step_arr (k : Nat) (v : List Nat) (rest : Bytes) (msg : M2Message)
    (hk : k < 2^24) (hlen : v.length < 2^16) (hpos : 1 ≤ v.length)
    (hval : ∀ x ∈ v, x < 2^32) :
    parseM2Loop (encField (.arrF k v) ++ rest) msg =
      parseM2Loop rest (applyField msg (.arrF k v)) := by
  have hs : typeUint32Array = 2^24 * 136 := by norm_num [typeUint32Array]
  have henc : encField (.arrF k v) =
      u32le (k ||| typeUint32Array) ++ u16le v.length ++ v.flatMap u32le := rfl
  have hH : k ||| typeUint32Array = 2^24 * 136 + k := by
    rw [hs]
    exact lor_type k 136 hk
  rw [henc, hH, List.append_assoc, List.append_assoc]
  have hfl : (v.flatMap u32le).length = 4 * v.length := flatMap_u32le_length v
  have hlendata : (u32le (2^24 * 136 + k) ++
      (u16le v.length ++ (v.flatMap u32le ++ rest))).length > 4 := by
    rw [u32le_append_length]
    simp [u16le]
  have hle : leU32 (u32le (2^24 * 136 + k) ++
      (u16le v.length ++ (v.flatMap u32le ++ rest))) = 2^24 * 136 + k :=
    leU32_header 136 k _ (by norm_num) hk
  have htype : (2^24 * 136 + k) &&& 0xf8000000 = typeUint32Array := by
    rw [header_and_high 136 k (by norm_num) hk, hs]
  have hname : (2^24 * 136 + k) &&& 0x00ffffff = k := header_and_name 136 k hk
  rw [parseM2Loop.eq_def, dif_pos hlendata, hle, htype,
    if_neg (by norm_num [typeUint32Array, typeBoolean]),
    if_neg (by norm_num [typeUint32Array, typeUint32]),
    if_neg (by norm_num [typeUint32Array, typeString]),
    if_neg (by norm_num [typeUint32Array, typeRaw]), if_pos rfl,
    u32le_append_drop4]
  have hc1 : ¬ ((u16le v.length ++ (v.flatMap u32le ++ rest)).length ≤ 2) := by
    simp only [List.length_append, u16le, List.length_cons, List.length_nil]
    omega
  rw [if_neg hc1]
  rw [leU16_u16le, Nat.mod_eq_of_lt hlen]
  have hdrop2 : (u16le v.length ++ (v.flatMap u32le ++ rest)).drop 2 =
      v.flatMap u32le ++ rest := by
    simp [u16le]
  rw [hdrop2]
  have hc2 : ¬ ((v.flatMap u32le ++ rest).length < v.length * 4) := by
    simp only [List.length_append, hfl]
    omega
  rw [if_neg hc2]
  rw [hname]
  cases v with
  | nil => exact absurd hpos (by simp)
  | cons x xs =>
    rw [appendU32Entries_nonempty x xs rest msg.arrays k hval]
    rfl

theorem parse_step (f : M2Field) (rest : Bytes) (msg : M2Message)
    (hok : fieldOK f) (hstep : fieldStepOK f rest) :
    parseM2Loop (encField f ++ rest) msg = parseM2Loop rest (applyField msg f) := by
  cases f with
  | boolF k v => exact parse_step_bool k v rest msg hok hstep
  | u32F k v => exact parse_step_u32 k v rest msg hok.1 hok.2
  | strF k v => exact parse_step_str k v rest msg hok.1 hok.2 hstep
  | rawF k v => exact parse_step_raw k v rest msg hok.1 hok.2 hstep
  | arrF k v => exact parse_step_arr k v rest msg hok.1 hok.2.1 hok.2.2.1 hok.2.2.2

theorem encField_length_ge (f : M2Field) : 4 ≤ (encField f).length := by
  cases f with
  | boolF k v => simp [encField, serBool, u32le]
  | u32F k v =>
    rw [encField, serU32]
    split <;> simp [u32le]
  | strF k v =>
    rw [encField, serStrLike]
    split <;> simp [u32le, u16le]
  | rawF k v =>
    rw [encField, serStrLike]
    split <;> simp [u32le, u16le]
  | arrF k v => simp [encField, serArr, u32le, u16le]

theorem fieldStepOK_of_long (f : M2Field) (rest : Bytes)
    (h : 4 ≤ rest.length) : fieldStepOK f rest := by
  cases f with
  | boolF k v =>
    show rest ≠ []
    intro hc
    rw [hc] at h
    simp at h
  | u32F k v => trivial
  | strF k v =>
    show 2 ≤ _ + rest.length
    omega
  | rawF k v =>
    show 2 ≤ _ + rest.length
    omega
  | arrF k v =>
    show 1 ≤ _ + rest.length
    omega

theorem parseM2Loop_nil (msg : M2Message) : parseM2Loop [] msg = some msg := by
  rw [parseM2Loop.eq_def]
  rfl

theorem parse_fields (fs : List M2Field) (msg : M2Message)
    (hok : ∀ f ∈ fs, fieldOK f)
    (hlast : ∀ h : fs ≠ [], fieldTailOK (fs.getLast h)) :
    parseM2Loop (fs.flatMap encField) msg = some (fs.foldl applyField msg) := by
  induction fs generalizing msg with
  | nil => exact parseM2Loop_nil msg
  | cons f fs ih =>
    have hokf : fieldOK f := hok f (List.mem_cons_self f fs)
    have hokfs : ∀ g ∈ fs, fieldOK g := fun g hg => hok g (List.mem_cons_of_mem f hg)
    rw [List.flatMap_cons]
    cases fs with
    | nil =>
      have htail : fieldTailOK f := by
        have := hlast (by simp)
        simpa using this
      have hstep : fieldStepOK f [] := by
        cases f with
        | boolF k v => exact absurd htail (by simp [fieldTailOK])
        | u32F k v => trivial
        | strF k v =>
          show 2 ≤ _ + ([] : Bytes).length
          have h2 : 2 ≤ v.length := htail
          simpa using h2
        | rawF k v =>
          show 2 ≤ _ + ([] : Bytes).length
          have h2 : 2 ≤ v.length := htail
          simpa using h2
        | arrF k v =>
          show 1 ≤ _ + ([] : Bytes).length
          have h1 : 1 ≤ v.length := htail
          simpa using h1
      simp only [List.flatMap_nil, List.append_nil]
      have := parse_step f [] msg hokf hstep
      simp only [List.append_nil] at this
      rw [this, parseM2Loop_nil]
      rfl
    | cons g gs =>
      have hlen4 : 4 ≤ ((g :: gs).flatMap encField).length := by
        rw [List.flatMap_cons]
        have := encField_length_ge g
        simp only [List.length_append]
        omega
      have hstep : fieldStepOK f ((g :: gs).flatMap encField) :=
        fieldStepOK_of_long f _ hlen4
      rw [parse_step f _ msg hokf hstep]
      have hlast2 : ∀ h : (g :: gs) ≠ [], fieldTailOK ((g :: gs).getLast h) := by
        intro h
        have hne : f :: g :: gs ≠ [] := by simp
        have := hlast hne
        rwa [List.getLast_cons h] at this
      rw [ih (applyField msg f) hokfs hlast2]
      rfl

/-- Keys of an association list (the Go map domain). -/
def keysOf {α : Type} (l : List (Nat × α)) : List Nat := l.map Prod.fst

theorem assocSet_fresh {α : Type} (acc : List (Nat × α)) (k : Nat) (v : α)
    (hk : k ∉ keysOf acc) : assocSet acc k v = acc ++ [(k, v)] := by
  induction acc with
  | nil => rfl
  | cons kv t ih =>
    have hne : kv.1 ≠ k := by
      intro hc
      exact hk (by simp [keysOf, hc])
    have ht : k ∉ keysOf t := by
      intro hc
      exact hk (by simp [keysOf] at hc ⊢; right; exact hc)
    show assocSet (kv :: t) k v = _
    cases kv with
    | mk k1 v1 =>
      rw [assocSet, if_neg hne, ih ht]
      rfl

theorem assocGetD_fresh {α : Type} (acc : List (Nat × α)) (k : Nat) (d : α)
    (hk : k ∉ keysOf acc) : assocGetD acc k d = d := by
  induction acc with
  | nil => rfl
  | cons kv t ih =>
    have hne : kv.1 ≠ k := by
      intro hc
      exact hk (by simp [keysOf, hc])
    have ht : k ∉ keysOf t := by
      intro hc
      exact hk (by simp [keysOf] at hc ⊢; right; exact hc)
    cases kv with
    | mk k1 v1 =>
      rw [assocGetD, if_neg hne]
      exact ih ht

theorem foldl_assocSet {α : Type} (l : List (Nat × α)) (acc : List (Nat × α))
    (hd : ∀ k ∈ keysOf l, k ∉ keysOf acc) (hn : (keysOf l).Nodup) :
    l.foldl (fun a kv => assocSet a kv.1 kv.2) acc = acc ++ l := by
  induction l generalizing acc with
  | nil => simp
  | cons kv t ih =>
    have hcons : keysOf (kv :: t) = kv.1 :: keysOf t := rfl
    have hn2 : kv.1 ∉ keysOf t ∧ (keysOf t).Nodup := by
      have := hn
      rw [hcons, List.nodup_cons] at this
      exact this
    have hk : kv.1 ∉ keysOf acc := hd kv.1 (by rw [hcons]; exact List.mem_cons_self _ _)
    rw [List.foldl_cons, assocSet_fresh acc kv.1 kv.2 hk]
    have hd2 : ∀ k ∈ keysOf t, k ∉ keysOf (acc ++ [(kv.1, kv.2)]) := by
      intro k hkt hmem
      have hkeys : keysOf (acc ++ [(kv.1, kv.2)]) = keysOf acc ++ [kv.1] := by
        simp [keysOf]
      rw [hkeys, List.mem_append] at hmem
      rcases hmem with h1 | h1
      · exact hd k (by rw [hcons]; exact List.mem_cons_of_mem _ hkt) h1
      · simp at h1
        subst h1
        exact hn2.1 hkt
    rw [ih (acc ++ [(kv.1, kv.2)]) hd2 hn2.2, List.append_assoc]
    rfl

theorem foldl_assocAppendArr (l : List (Nat × List Nat)) (acc : List (Nat × List Nat))
    (hd : ∀ k ∈ keysOf l, k ∉ keysOf acc) (hn : (keysOf l).Nodup) :
    l.foldl (fun a kv => assocAppendArr a kv.1 kv.2) acc = acc ++ l := by
  induction l generalizing acc with
  | nil => simp
  | cons kv t ih =>
    have hcons : keysOf (kv :: t) = kv.1 :: keysOf t := rfl
    have hn2 : kv.1 ∉ keysOf t ∧ (keysOf t).Nodup := by
      have := hn
      rw [hcons, List.nodup_cons] at this
      exact this
    have hk : kv.1 ∉ keysOf acc := hd kv.1 (by rw [hcons]; exact List.mem_cons_self _ _)
    have happ : assocAppendArr acc kv.1 kv.2 = acc ++ [(kv.1, kv.2)] := by
      rw [assocAppendArr, assocGetD_fresh acc kv.1 [] hk, List.nil_append,
        assocSet_fresh acc kv.1 kv.2 hk]
    rw [List.foldl_cons, happ]
    have hd2 : ∀ k ∈ keysOf t, k ∉ keysOf (acc ++ [(kv.1, kv.2)]) := by
      intro k hkt hmem
      have hkeys : keysOf (acc ++ [(kv.1, kv.2)]) = keysOf acc ++ [kv.1] := by
        simp [keysOf]
      rw [hkeys, List.mem_append] at hmem
      rcases hmem with h1 | h1
      · exact hd k (by rw [hcons]; exact List.mem_cons_of_mem _ hkt) h1
      · simp at h1
        subst h1
        exact hn2.1 hkt
    rw [ih (acc ++ [(kv.1, kv.2)]) hd2 hn2.2, List.append_assoc]
    rfl

theorem foldl_apply_bools (l : List (Nat × Bool)) (msg : M2Message) :
    (l.map fun kv => M2Field.boolF kv.1 kv.2).foldl applyField msg =
      { msg with bools := l.foldl (fun a kv => assocSet a kv.1 kv.2) msg.bools } := by
  induction l generalizing msg with
  | nil => rfl
  | cons kv t ih =>
    rw [List.map_cons, List.foldl_cons, List.foldl_cons, ih]
    rfl

theorem foldl_apply_u32s (l : List (Nat × Nat)) (msg : M2Message) :
    (l.map fun kv => M2Field.u32F kv.1 kv.2).foldl applyField msg =
      { msg with u32s := l.foldl (fun a kv => assocSet a kv.1 kv.2) msg.u32s } := by
  induction l generalizing msg with
  | nil => rfl
  | cons kv t ih =>
    rw [List.map_cons, List.foldl_cons, List.foldl_cons, ih]
    rfl

theorem foldl_apply_strs (l : List (Nat × Bytes)) (msg : M2Message) :
    (l.map fun kv => M2Field.strF kv.1 kv.2).foldl applyField msg =
      { msg with strs := l.foldl (fun a kv => assocSet a kv.1 kv.2) msg.strs } := by
  induction l generalizing msg with
  | nil => rfl
  | cons kv t ih =>
    rw [List.map_cons, List.foldl_cons, List.foldl_cons, ih]
    rfl

theorem foldl_apply_raws (l : List (Nat × Bytes)) (msg : M2Message) :
    (l.map fun kv => M2Field.rawF kv.1 kv.2).foldl applyField msg =
      { msg with raws := l.foldl (fun a kv => assocSet a kv.1 kv.2) msg.raws } := by
  induction l generalizing msg with
  | nil => rfl
  | cons kv t ih =>
    rw [List.map_cons, List.foldl_cons, List.foldl_cons, ih]
    rfl

theorem foldl_apply_arrays (l : List (Nat × List Nat)) (msg : M2Message) :
    (l.map fun kv => M2Field.arrF kv.1 kv.2).foldl applyField msg =
      { msg with arrays := l.foldl (fun a kv => assocAppendArr a kv.1 kv.2) msg.arrays } := by
  induction l generalizing msg with
  | nil => rfl
  | cons kv t ih =>
    rw [List.map_cons, List.foldl_cons, List.foldl_cons, ih]
    rfl

theorem header_getD3 (t k : Nat) (ht : t < 256) (hk : k < 2^24) (tail : Bytes) :
    (u32le (2^24 * t + k) ++ tail).getD 3 0 = t := by
  have h : (u32le (2^24 * t + k) ++ tail).getD 3 0 =
      (2^24 * t + k) / 16777216 % 256 := rfl
  rw [h]
  omega

theorem encField_getD3_ne_50 (f : M2Field) (r : Bytes) (hok : fieldOK f) :
    (encField f ++ r).getD 3 0 ≠ 50 := by
  cases f with
  | boolF k v =>
    cases v with
    | false =>
      show (u32le k ++ r).getD 3 0 ≠ 50
      have h0 : 2^24 * 0 + k = k := by ring
      have hg := header_getD3 0 k (by norm_num) hok r
      rw [h0] at hg
      rw [hg]
      norm_num
    | true =>
      show (u32le (k ||| typeShortLength) ++ r).getD 3 0 ≠ 50
      have hsl : typeShortLength = 2^24 * 1 := by norm_num [typeShortLength]
      rw [hsl, lor_type k 1 hok, header_getD3 1 k (by norm_num) hok r]
      norm_num
  | u32F k v =>
    have hu : typeUint32 = 2^24 * 8 := by norm_num [typeUint32]
    have hsl : typeShortLength = 2^24 * 1 := by norm_num [typeShortLength]
    by_cases h255 : v > 255
    · have henc : encField (.u32F k v) = u32le (k ||| typeUint32) ++ u32le v := by
        rw [encField, serU32, if_pos h255]
      rw [henc, List.append_assoc, hu, lor_type k 8 hok.1,
        header_getD3 8 k (by norm_num) hok.1 _]
      norm_num
    · have henc : encField (.u32F k v) =
          u32le (k ||| typeUint32 ||| typeShortLength) ++ [v &&& 255] := by
        rw [encField, serU32, if_neg h255]
      rw [henc, List.append_assoc, hu, hsl, lor_type k 8 hok.1,
        lor_high_add 8 1 k hok.1]
      have h89 : (8 ||| 1 : Nat) = 9 := rfl
      rw [h89, header_getD3 9 k (by norm_num) hok.1 _]
      norm_num
  | strF k v =>
    have hst : typeString = 2^24 * 32 := by norm_num [typeString]
    have hsl : typeShortLength = 2^24 * 1 := by norm_num [typeShortLength]
    by_cases h255 : v.length > 255
    · have henc : encField (.strF k v) = u32le (k ||| typeString) ++ u16le v.length ++ v := by
        rw [encField, serStrLike, if_pos h255]
      rw [henc, List.append_assoc, List.append_assoc, hst, lor_type k 32 hok.1,
        header_getD3 32 k (by norm_num) hok.1 _]
      norm_num
    · have henc : encField (.strF k v) =
          u32le (k ||| typeString ||| typeShortLength) ++ [v.length] ++ v := by
        rw [encField, serStrLike, if_neg h255]
      rw [henc, List.append_assoc, List.append_assoc, hst, hsl, lor_type k 32 hok.1,
        lor_high_add 32 1 k hok.1]
      have h321 : (32 ||| 1 : Nat) = 33 := rfl
      rw [h321, header_getD3 33 k (by norm_num) hok.1 _]
      norm_num
  | rawF k v =>
    have hrw : typeRaw = 2^24 * 48 := by norm_num [typeRaw]
    have hsl : typeShortLength = 2^24 * 1 := by norm_num [typeShortLength]
    by_cases h255 : v.length > 255
    · have henc : encField (.rawF k v) = u32le (k ||| typeRaw) ++ u16le v.length ++ v := by
        rw [encField, serStrLike, if_pos h255]
      rw [henc, List.append_assoc, List.append_assoc, hrw, lor_type k 48 hok.1,
        header_getD3 48 k (by norm_num) hok.1 _]
      norm_num
    · have henc : encField (.rawF k v) =
          u32le (k ||| typeRaw ||| typeShortLength) ++ [v.length] ++ v := by
        rw [encField, serStrLike, if_neg h255]
      rw [henc, List.append_assoc, List.append_assoc, hrw, hsl, lor_type k 48 hok.1,
        lor_high_add 48 1 k hok.1]
      have h481 : (48 ||| 1 : Nat) = 49 := rfl
      rw [h481, header_getD3 49 k (by norm_num) hok.1 _]
      norm_num
  | arrF k v =>
    have har : typeUint32Array = 2^24 * 136 := by norm_num [typeUint32Array]
    have henc : encField (.arrF k v) =
        u32le (k ||| typeUint32Array) ++ u16le v.length ++ v.flatMap u32le := rfl
    rw [henc, List.append_assoc, List.append_assoc, har, lor_type k 136 hok.1,
      header_getD3 136 k (by norm_num) hok.1 _]
    norm_num

/-- C10, amended (the corrected round trip): for every M2 message with at
least one field, 24-bit field names without duplicates inside each map,
uint32 values and entries, string/raw payloads and arrays shorter than
65536, every u32 array nonempty (the parser's per-entry loop never creates
the map key for a zero-entry array, so such a key is lost), and whose final
serialized field is not a boolean and has a payload of at least 2 bytes if
a string or raw field, ParseM2Message applied to Serialize's output
succeeds and reconstructs exactly the original field maps. -/
theorem c10_amended (m : M2Message) (hne : fieldsOf m ≠ [])
    (hok : ∀ f ∈ fieldsOf m, fieldOK f)
    (hlast : fieldTailOK ((fieldsOf m).getLast hne))
    (hb : (keysOf m.bools).Nodup) (hu : (keysOf m.u32s).Nodup)
    (hs : (keysOf m.strs).Nodup) (hr : (keysOf m.raws).Nodup)
    (ha : (keysOf m.arrays).Nodup) :
    parseM2Message (serializeM2 m) emptyM2 = some m := by
  obtain ⟨f0, fs, hcons⟩ : ∃ f0 fs, fieldsOf m = f0 :: fs := by
    cases hf : fieldsOf m with
    | nil => exact absurd hf hne
    | cons a l => exact ⟨a, l, rfl⟩
  have hok0 : fieldOK f0 := hok f0 (by rw [hcons]; exact List.mem_cons_self _ _)
  have hlen4 : 4 ≤ ((fieldsOf m).flatMap encField).length := by
    rw [hcons, List.flatMap_cons, List.length_append]
    have := encField_length_ge f0
    omega
  have hgd : ((fieldsOf m).flatMap encField).getD 3 0 ≠ 50 := by
    rw [hcons, List.flatMap_cons]
    exact encField_getD3_ne_50 f0 _ hok0
  rw [serializeM2_eq_fields]
  unfold parseM2Message
  rw [if_neg (by omega)]
  rw [if_neg (by intro hc; exact hgd hc.2.2)]
  rw [parse_fields (fieldsOf m) emptyM2 hok (fun _ => hlast)]
  congr 1
  show List.foldl applyField emptyM2 (fieldsOf m) = m
  rw [fieldsOf, List.foldl_append, List.foldl_append, List.foldl_append,
    List.foldl_append]
  rw [foldl_apply_bools, foldl_apply_u32s, foldl_apply_strs, foldl_apply_raws,
    foldl_apply_arrays]
  simp only [emptyM2]
  rw [foldl_assocSet m.bools [] (fun k _ hc => by simp [keysOf] at hc) hb,
    foldl_assocSet m.u32s [] (fun k _ hc => by simp [keysOf] at hc) hu,
    foldl_assocSet m.strs [] (fun k _ hc => by simp [keysOf] at hc) hs,
    foldl_assocSet m.raws [] (fun k _ hc => by simp [keysOf] at hc) hr,
    foldl_assocAppendArr m.arrays [] (fun k _ hc => by simp [keysOf] at hc) ha]
  simp only [List.nil_append]

/-- C10, counterexample to the claim as stated: the message with the single
boolean field 1 ↦ true (one field, no string or raw payload at all)
serializes to the 4 bytes [1, 0, 0, 1]; ParseM2Message returns true on
them but, because its loop runs only while more than 4 bytes remain, the
trailing boolean field is dropped and the parsed message is empty, not the
original. -/
theorem c10_counterexample :
    serializeM2 ⟨[(1, true)], [], [], [], []⟩ = [1, 0, 0, 1] ∧
      parseM2Message [1, 0, 0, 1] emptyM2 = some emptyM2 ∧
      emptyM2 ≠ (⟨[(1, true)], [], [], [], []⟩ : M2Message) := by
  refine ⟨rfl, ?_, by decide⟩
  unfold parseM2Message
  rw [if_neg (by decide), if_neg (by decide), parseM2Loop.eq_def,
    dif_neg (by decide)]

/-- Witness for c10_amended at the message with boolean field 1 ↦ true and
u32 field 2 ↦ 300 (the final serialized field is a long-form u32). -/
theorem c10_amended_witness :
    parseM2Message (serializeM2 ⟨[(1, true)], [(2, 300)], [], [], []⟩) emptyM2 =
      some ⟨[(1, true)], [(2, 300)], [], [], []⟩ := by
  have hne : fieldsOf ⟨[(1, true)], [(2, 300)], [], [], []⟩ ≠ [] := by decide
  refine c10_amended ⟨[(1, true)], [(2, 300)], [], [], []⟩ hne ?_ ?_
    (by decide) (by decide) (by decide) (by decide) (by decide)
  · intro f hf
    have hfe : fieldsOf ⟨[(1, true)], [(2, 300)], [], [], []⟩ =
        [M2Field.boolF 1 true, M2Field.u32F 2 300] := rfl
    rw [hfe] at hf
    rcases List.mem_cons.mp hf with h1 | h1
    · subst h1
      show (1:Nat) < 2^24
      norm_num
    · rcases List.mem_cons.mp h1 with h2 | h2
      · subst h2
        exact ⟨by norm_num, by norm_num⟩
      · exact absurd h2 (List.not_mem_nil f)
  · show fieldTailOK (M2Field.u32F 2 300)
    trivial

end RouterBrute
